import Mathlib

/-!
Verification of the dumbwaiter ETL pipeline (src/dumbwaiter/pipeline.py).

Python strings are modelled as `List Char`; the text helpers
(`normalize_names`, `fingerprint`, `reformat_dates`), the document mapper
(`reshape_data`), the merged-dataframe construction (`load_and_tranform`)
and the streaming bulk-load accounting (`load`) are shallowly embedded
below, translated from the source. Character classes model the ASCII
fragment of the Unicode-aware Python classes; all inputs exercised by the
claims are ASCII.
-/

/-- Whitespace characters recognised by Python str.split and str.strip
(ASCII fragment of the Unicode whitespace class). -/
def pySpace (c : Char) : Bool :=
  c = ' ' || c = '\t' || c = '\n' || c = '\r' || c = '\x0b' || c = '\x0c'

/-- Word characters of the regex word class used by re.split in
fingerprint: letters, digits and the underscore (ASCII fragment of the
Unicode-aware class; the source does not pass re.ASCII, and diacritics are
kept significant). -/
def wordChar (c : Char) : Bool := c.isAlphanum || c = '_'

/-- Python str.strip: drop leading and trailing whitespace. -/
def pyStrip (l : List Char) : List Char :=
  ((l.dropWhile pySpace).reverse.dropWhile pySpace).reverse

/-- Python str.lower, modelled by the ASCII case mapping Char.toLower. -/
def pyLower (l : List Char) : List Char := l.map Char.toLower

/-- Maximal runs of characters satisfying isWord; boundary characters are
dropped and no empty token is produced. With isWord the negation of
whitespace this is Python str.split with no separator argument. -/
def runTokensAux (isWord : Char → Bool) : List Char → List Char → List (List Char)
  | acc, [] => if acc.isEmpty then [] else [acc.reverse]
  | acc, c :: cs =>
    if isWord c then runTokensAux isWord (c :: acc) cs
    else if acc.isEmpty then runTokensAux isWord [] cs
    else acc.reverse :: runTokensAux isWord [] cs

def runTokens (isWord : Char → Bool) (l : List Char) : List (List Char) :=
  runTokensAux isWord [] l

/-- Python str.split with no separator: maximal runs of non-whitespace. -/
def pySplit (l : List Char) : List (List Char) := runTokens (fun c => !pySpace c) l

/-- Python single-space join of a token list. -/
def joinSpace : List (List Char) → List Char
  | [] => []
  | [t] => t
  | t :: t' :: ts => t ++ ' ' :: joinSpace (t' :: ts)

/-- The helper normalize_names of pipeline.py: strip, lowercase, split on
whitespace, drop empty tokens, join with single spaces. -/
def normalize_names (l : List Char) : List Char :=
  joinSpace ((pySplit (pyLower (pyStrip l))).filter (fun t => !t.isEmpty))

/-- Pieces produced by re.split on the non-word class: the input is cut at
every single non-word character, so empty pieces appear between adjacent
boundary characters and at the ends. -/
def reSplitAux : List Char → List Char → List (List Char)
  | acc, [] => [acc.reverse]
  | acc, c :: cs =>
    if wordChar c then reSplitAux (c :: acc) cs else acc.reverse :: reSplitAux [] cs

def reSplitW (l : List Char) : List (List Char) := reSplitAux [] l

/-- The generator expression filter(None, re.split(..)) of fingerprint:
the split pieces with the empty ones discarded. -/
def alphanumeric_tokens (l : List Char) : List (List Char) :=
  (reSplitW l).filter (fun t => !t.isEmpty)

/-- First-seen deduplication through a seen set, as in fingerprint. -/
def dedupSeen : List (List Char) → List (List Char) → List (List Char)
  | _, [] => []
  | seen, t :: ts =>
    if t ∈ seen then dedupSeen seen ts else t :: dedupSeen (t :: seen) ts

/-- Lexicographic comparison by code point on character lists; this is the
order Python sorted uses on strings. -/
def lexLe : List Char → List Char → Bool
  | [], _ => true
  | _ :: _, [] => false
  | a :: as, b :: bs =>
    if a.val < b.val then true else if b.val < a.val then false else lexLe as bs

def lexRel (a b : List Char) : Prop := lexLe a b = true

instance : DecidableRel lexRel := fun a b => inferInstanceAs (Decidable (lexLe a b = true))

/-- Python sorted on a list of strings, ascending by code point. -/
def sortLex (ts : List (List Char)) : List (List Char) := List.insertionSort lexRel ts

/-- The helper fingerprint of pipeline.py: split on the non-word class,
drop empty pieces, first-seen dedup, sort, join with single spaces. -/
def fingerprint (l : List Char) : List Char :=
  joinSpace (sortLex (dedupSeen [] (alphanumeric_tokens l)))

/-- Modelled from the words of claim C1: every maximal run of
non-alphanumeric characters, the underscore included, is a token boundary;
empty tokens discarded, tokens deduplicated, sorted and joined by spaces. -/
def fingerprintClaimC1 (l : List Char) : List Char :=
  joinSpace (sortLex (dedupSeen [] (runTokens Char.isAlphanum l)))

/-- Amended spec version of fingerprint: maximal runs of non-word
characters are the boundaries, where the underscore is a word character
and so part of tokens rather than a boundary. -/
def fingerprintRuns (l : List Char) : List Char :=
  joinSpace (sortLex (dedupSeen [] (runTokens wordChar l)))

/-- Concrete input for claim C1: an underscore between two letters. -/
def c1Input : List Char := ['a', '_', 'b']

/-- Concrete inputs for claim C6, from the spec's example. -/
def c6InputA : List Char :=
  ['b', 'e', 'e', 'f', ' ', 's', 't', 'e', 'w', ' ', 's', 't', 'e', 'w']

def c6InputB : List Char := ['s', 't', 'e', 'w', ' ', 'b', 'e', 'e', 'f']

/-! Date canonicalization: reformat_dates of pipeline.py parses the fixed
strptime format of year, month, day, hour, minute, second and a timezone
abbreviation, attaches UTC, and renders the compact basic format. -/
/-- Numeric value of a list of decimal digit characters, most significant
first. -/
def digitsToNat (ds : List Char) : Nat :=
  ds.foldl (fun a c => 10 * a + (c.toNat - 48)) 0

/-- Two-digit zero padding as the strftime directives for month, day,
hour, minute and second produce. -/
def pad2 (n : Nat) : List Char :=
  if n < 10 then '0' :: Nat.toDigits 10 n else Nat.toDigits 10 n

def isLeapYear (y : Nat) : Bool :=
  y % 4 == 0 && (!(y % 100 == 0) || y % 400 == 0)

/-- Length of a month in the proleptic Gregorian calendar used by the
Python datetime constructor. -/
def daysInMonth (y m : Nat) : Nat :=
  if m == 2 then (if isLeapYear y then 29 else 28)
  else if m == 4 || m == 6 || m == 9 || m == 11 then 30 else 31

/-- Timezone names accepted by the strptime directive for zone
abbreviations in a process whose local zone is UTC: the names utc and gmt,
case-insensitively; other abbreviations make strptime raise. -/
def acceptedTzNames : List (List Char) :=
  [['u', 't', 'c'], ['g', 'm', 't']]

def tzAccepted (tz : List Char) : Bool :=
  decide (tz.map Char.toLower ∈ acceptedTzNames)

/-- Any alphabetic abbreviation, the reading of the timezone field that
claim C4 asserts. -/
def tzAnyAbbrev (tz : List Char) : Bool :=
  !tz.isEmpty && tz.all Char.isAlpha

structure TimeStamp where
  year : Nat
  month : Nat
  day : Nat
  hour : Nat
  minute : Nat
  second : Nat
deriving DecidableEq

/-- Reads a run of one or two decimal digits and returns its value with
the rest of the input, as the one-or-two digit strptime field patterns
match. -/
def parse2 (l : List Char) : Option (Nat × List Char) :=
  let ds := l.takeWhile Char.isDigit
  if ds.length = 1 ∨ ds.length = 2 then some (digitsToNat ds, l.dropWhile Char.isDigit)
  else none

/-- Reads the exactly-four-digit year field. -/
def parseYear (l : List Char) : Option (Nat × List Char) :=
  let ds := l.takeWhile Char.isDigit
  if ds.length = 4 then some (digitsToNat ds, l.dropWhile Char.isDigit) else none

def expectChar (c : Char) : List Char → Option (List Char)
  | [] => none
  | x :: r => if x = c then some r else none

/-- Reads a nonempty run of whitespace, as a literal space of the
strptime format does. -/
def parseSpaces (l : List Char) : Option (List Char) :=
  if (l.takeWhile pySpace).isEmpty then none else some (l.dropWhile pySpace)

/-- Field validation done by the strptime patterns together with the
datetime constructor: four-digit year of at least 1, month 1 to 12,
calendar-valid day, hour to 23, minute and second to 59, and an accepted
timezone abbreviation filling the rest of the input. -/
def validTimeStamp (y m d h mi s : Nat) : Bool :=
  1 ≤ y && 1 ≤ m && m ≤ 12 && 1 ≤ d && d ≤ daysInMonth y m &&
    h ≤ 23 && mi ≤ 59 && s ≤ 59

/-- Parser for the fixed strptime format, with the set of timezone
abbreviations it accepts as a parameter; each field feeds the rest of the
input to the next one, as the compiled strptime regex does. -/
def parseTimestampWith (tzOk : List Char → Bool) (l : List Char) : Option TimeStamp :=
  match parseYear l with
  | none => none
  | some (y, r1) =>
  match expectChar '-' r1 with
  | none => none
  | some r2 =>
  match parse2 r2 with
  | none => none
  | some (m, r3) =>
  match expectChar '-' r3 with
  | none => none
  | some r4 =>
  match parse2 r4 with
  | none => none
  | some (d, r5) =>
  match parseSpaces r5 with
  | none => none
  | some r6 =>
  match parse2 r6 with
  | none => none
  | some (h, r7) =>
  match expectChar ':' r7 with
  | none => none
  | some r8 =>
  match parse2 r8 with
  | none => none
  | some (mi, r9) =>
  match expectChar ':' r9 with
  | none => none
  | some r10 =>
  match parse2 r10 with
  | none => none
  | some (s, r11) =>
  match parseSpaces r11 with
  | none => none
  | some r12 =>
  if validTimeStamp y m d h mi s = true ∧ tzOk r12 = true then some ⟨y, m, d, h, mi, s⟩
  else none

def parseTimestamp (l : List Char) : Option TimeStamp :=
  parseTimestampWith tzAccepted l

/-- Compact rendering of strftime with the basic date-time directives and
the numeric offset of UTC: unpadded year, two-digit month, day, a T,
two-digit hour, minute, second, then plus zero zero zero zero. -/
def formatCompact (t : TimeStamp) : List Char :=
  Nat.toDigits 10 t.year ++ pad2 t.month ++ pad2 t.day ++
    'T' :: (pad2 t.hour ++ pad2 t.minute ++ pad2 t.second ++ ['+', '0', '0', '0', '0'])

inductive ParseError where
  | invalidFormat
deriving DecidableEq

/-- The helper reformat_dates of pipeline.py: strptime on the fixed
format, replace the zone by UTC, strftime the compact form; a ValueError
from strptime or the datetime constructor is the ParseError of the spec. -/
def reformat_dates (l : List Char) : Except ParseError (List Char) :=
  match parseTimestamp l with
  | some t => Except.ok (formatCompact t)
  | none => Except.error ParseError.invalidFormat

/-- Structural form of a timestamp that the parser accepts: the amended
pattern of claim C4, with the digit fields, whitespace runs and the
accepted timezone abbreviations spelled out. -/
def matchesTimestampPattern (l : List Char) : Prop :=
  ∃ yd md dd ws1 hd mid sd ws2 tz : List Char,
    l = yd ++ '-' :: (md ++ '-' :: (dd ++ (ws1 ++ (hd ++ ':' ::
      (mid ++ ':' :: (sd ++ (ws2 ++ tz))))))) ∧
    (∀ c ∈ yd, Char.isDigit c = true) ∧ yd.length = 4 ∧
    (∀ c ∈ md, Char.isDigit c = true) ∧ (md.length = 1 ∨ md.length = 2) ∧
    (∀ c ∈ dd, Char.isDigit c = true) ∧ (dd.length = 1 ∨ dd.length = 2) ∧
    (∀ c ∈ ws1, pySpace c = true) ∧ ws1 ≠ [] ∧
    (∀ c ∈ hd, Char.isDigit c = true) ∧ (hd.length = 1 ∨ hd.length = 2) ∧
    (∀ c ∈ mid, Char.isDigit c = true) ∧ (mid.length = 1 ∨ mid.length = 2) ∧
    (∀ c ∈ sd, Char.isDigit c = true) ∧ (sd.length = 1 ∨ sd.length = 2) ∧
    (∀ c ∈ ws2, pySpace c = true) ∧ ws2 ≠ [] ∧
    tzAccepted tz = true ∧
    validTimeStamp (digitsToNat yd) (digitsToNat md) (digitsToNat dd)
      (digitsToNat hd) (digitsToNat mid) (digitsToNat sd) = true

/-- Concrete inputs for claim C4. -/
def c4UtcInput : List Char := "2011-03-28 15:00:44 UTC".data

def c4EstInput : List Char := "2011-03-28 15:00:44 EST".data

/-! The merged-dataframe construction load_and_tranform of pipeline.py.
Rows of the four CSV tables are structures; scalar cells that can hold a
missing value are a PVal. Numeric payload cells are modelled as integers,
their floating width playing no role in the claims. -/
/-- Scalar cell of a dataframe column: an integer, a string, or the
floating NaN that pandas uses for a missing value. -/
inductive PVal where
  | int (n : Int)
  | str (s : List Char)
  | nan
deriving DecidableEq

/-- Row of Dish.csv, indexed by id. -/
structure DishRow where
  id : Int
  name : List Char
  menus_appeared : PVal
  times_appeared : Int
deriving DecidableEq

/-- Row of MenuItem.csv, indexed by dish_id. -/
structure MenuItemRow where
  dish_id : Int
  id : Int
  menu_page_id : Int
  xpos : PVal
  ypos : PVal
  created_at : List Char
  updated_at : List Char
deriving DecidableEq

/-- Row of MenuPage.csv, indexed by id. -/
structure MenuPageRow where
  id : Int
  menu_id : Int
  page_number : PVal
  image_id : PVal
  full_height : PVal
  full_width : PVal
  uuid : PVal
deriving DecidableEq

/-- Row of Menu.csv, indexed by id. -/
structure MenuRow where
  id : Int
  sponsor : PVal
  location : PVal
  date : PVal
  page_count : PVal
  dish_count : PVal
deriving DecidableEq

/-- Row of the merged output frame after the renaming step, one per join
tuple, with the four synthesized URI columns. -/
structure MenuDocument where
  dish_id : Int
  menu_sponsor : PVal
  menu_location : PVal
  menu_date : PVal
  menu_page_count : PVal
  menu_dish_count : PVal
  item_id : Int
  menu_page_id : Int
  item_xpos : PVal
  item_ypos : PVal
  item_created_at : List Char
  item_updated_at : List Char
  menu_id : Int
  menu_page_number : PVal
  image_id : PVal
  page_image_full_height : PVal
  page_image_full_width : PVal
  page_image_uuid : PVal
  dish_name : List Char
  dish_menus_appeared : PVal
  dish_times_appeared : Int
  dish_normalized_name : List Char
  dish_name_fingerprint : List Char
  dish_uri : List Char
  item_uri : List Char
  menu_page_uri : List Char
  menu_uri : List Char
deriving DecidableEq

/-- Python str of an integer, as the format calls on int(x) produce. -/
def intChars : Int → List Char
  | Int.ofNat n => Nat.toDigits 10 n
  | Int.negSucc n => '-' :: Nat.toDigits 10 (n + 1)

def dishUriOf (i : Int) : List Char :=
  "http://menus.nypl.org/dishes/".data ++ intChars i

def itemUriOf (i : Int) : List Char :=
  "http://menus.nypl.org/menu_items/".data ++ intChars i ++ "/edit".data

def menuPageUriOf (i : Int) : List Char :=
  "http://menus.nypl.org/menu_pages/".data ++ intChars i

def menuUriOf (i : Int) : List Char :=
  "http://menus.nypl.org/menus/".data ++ intChars i

/-- Lenient numeric coercion of one cell: what astype to int converts. -/
def pvalIntCastable : PVal → Bool
  | PVal.int _ => true
  | PVal.str s => !s.isEmpty && s.all Char.isDigit
  | PVal.nan => false

/-- The astype call with raise_on_error set to False: the column converts
when every cell does, and otherwise comes back unchanged. Both call sites
in the source discard the result. -/
def astypeIntLenient (col : List PVal) : List PVal :=
  if col.all pvalIntCastable then
    col.map (fun v =>
      match v with
      | PVal.int n => PVal.int n
      | PVal.str s => PVal.int (Int.ofNat (digitsToNat s))
      | PVal.nan => PVal.nan)
  else col

/-- One cell of the fillna call: a NaN becomes the string null. The call
site in the source discards the result. -/
def fillnaVal : PVal → PVal
  | PVal.nan => PVal.str "null".data
  | v => v

def fillnaDoc (d : MenuDocument) : MenuDocument :=
  { d with
    menu_sponsor := fillnaVal d.menu_sponsor
    menu_location := fillnaVal d.menu_location
    menu_date := fillnaVal d.menu_date
    menu_page_count := fillnaVal d.menu_page_count
    menu_dish_count := fillnaVal d.menu_dish_count
    item_xpos := fillnaVal d.item_xpos
    item_ypos := fillnaVal d.item_ypos
    menu_page_number := fillnaVal d.menu_page_number
    image_id := fillnaVal d.image_id
    page_image_full_height := fillnaVal d.page_image_full_height
    page_image_full_width := fillnaVal d.page_image_full_width
    page_image_uuid := fillnaVal d.page_image_uuid
    dish_menus_appeared := fillnaVal d.dish_menus_appeared }

/-- One output row from a matching item, page, menu and dish tuple,
carrying the canonicalized item dates, the derived dish name columns and
the four synthesized URIs. -/
def mkDoc (it : MenuItemRow) (ca ua : List Char) (pg : MenuPageRow)
    (mn : MenuRow) (dsh : DishRow) : MenuDocument :=
  { dish_id := it.dish_id
    menu_sponsor := mn.sponsor
    menu_location := mn.location
    menu_date := mn.date
    menu_page_count := mn.page_count
    menu_dish_count := mn.dish_count
    item_id := it.id
    menu_page_id := it.menu_page_id
    item_xpos := it.xpos
    item_ypos := it.ypos
    item_created_at := ca
    item_updated_at := ua
    menu_id := pg.menu_id
    menu_page_number := pg.page_number
    image_id := pg.image_id
    page_image_full_height := pg.full_height
    page_image_full_width := pg.full_width
    page_image_uuid := pg.uuid
    dish_name := dsh.name
    dish_menus_appeared := dsh.menus_appeared
    dish_times_appeared := dsh.times_appeared
    dish_normalized_name := normalize_names dsh.name
    dish_name_fingerprint := fingerprint (normalize_names dsh.name)
    dish_uri := dishUriOf it.dish_id
    item_uri := itemUriOf it.id
    menu_page_uri := menuPageUriOf it.menu_page_id
    menu_uri := menuUriOf pg.menu_id }

/-- Map with failure, as a pandas column map of a raising function: the
first raising cell aborts. -/
def mapE (f : α → Except ε β) : List α → Except ε (List β)
  | [] => Except.ok []
  | x :: xs =>
    match f x, mapE f xs with
    | Except.error e, _ => Except.error e
    | Except.ok _, Except.error e => Except.error e
    | Except.ok y, Except.ok ys => Except.ok (y :: ys)

/-- The transform of pipeline.py after extraction: filter zero-appearance
dishes, derive normalized name and fingerprint, canonicalize the item
date columns, run the discarded astype coercions, merge the four tables
by inner joins on page id, menu id and dish id, synthesize the URIs, run
the discarded fillna, and emit one MenuDocument per join tuple. -/
def load_and_tranform (dishes : List DishRow) (items : List MenuItemRow)
    (pages : List MenuPageRow) (menus : List MenuRow) :
    Except ParseError (List MenuDocument) :=
  let non_null_dish := dishes.filter (fun d => d.times_appeared != 0)
  match mapE reformat_dates (items.map (fun it => it.created_at)) with
  | Except.error e => Except.error e
  | Except.ok cas =>
  match mapE reformat_dates (items.map (fun it => it.updated_at)) with
  | Except.error e => Except.error e
  | Except.ok uas =>
  let _heights := astypeIntLenient (pages.map (fun pg => pg.full_height))
  let _widths := astypeIntLenient (pages.map (fun pg => pg.full_width))
  let itemRows := items.zip (cas.zip uas)
  let docs := itemRows.flatMap (fun row =>
    (pages.filter (fun pg => pg.id == row.1.menu_page_id)).flatMap (fun pg =>
      (menus.filter (fun mn => mn.id == pg.menu_id)).flatMap (fun mn =>
        (non_null_dish.filter (fun dsh => dsh.id == row.1.dish_id)).map (fun dsh =>
          mkDoc row.1 row.2.1 row.2.2 pg mn dsh))))
  let _idcols :=
    (astypeIntLenient (docs.map (fun d => d.menu_page_number)),
     astypeIntLenient (docs.map (fun d => PVal.int d.dish_id)),
     astypeIntLenient (docs.map (fun d => PVal.int d.item_id)),
     astypeIntLenient (docs.map (fun d => PVal.int d.menu_page_id)),
     astypeIntLenient (docs.map (fun d => PVal.int d.menu_id)))
  let _filled := docs.map fillnaDoc
  Except.ok docs

/-! The document mapper reshape_data of pipeline.py. Its input models the
parsed JSON object produced by to_json on one merged row. -/
/-- JSON scalar as pandas to_json emits for this frame: a number, a
string, or null, which is what a NaN cell serializes to. -/
inductive Json where
  | num (n : Int)
  | str (s : String)
  | null
deriving DecidableEq

def pvalJson : PVal → Json
  | PVal.int n => Json.num n
  | PVal.str s => Json.str (String.mk s)
  | PVal.nan => Json.null

/-- Serialization of one merged row by to_json then json.loads: a mapping
from column name to JSON scalar, NaN cells becoming null. -/
def docToJson (d : MenuDocument) : List (String × Json) :=
  [("dish_id", Json.num d.dish_id),
   ("menu_sponsor", pvalJson d.menu_sponsor),
   ("menu_location", pvalJson d.menu_location),
   ("menu_date", pvalJson d.menu_date),
   ("menu_page_count", pvalJson d.menu_page_count),
   ("menu_dish_count", pvalJson d.menu_dish_count),
   ("item_id", Json.num d.item_id),
   ("menu_page_id", Json.num d.menu_page_id),
   ("item_xpos", pvalJson d.item_xpos),
   ("item_ypos", pvalJson d.item_ypos),
   ("item_created_at", Json.str (String.mk d.item_created_at)),
   ("item_updated_at", Json.str (String.mk d.item_updated_at)),
   ("menu_id", Json.num d.menu_id),
   ("menu_page_number", pvalJson d.menu_page_number),
   ("image_id", pvalJson d.image_id),
   ("page_image_full_height", pvalJson d.page_image_full_height),
   ("page_image_full_width", pvalJson d.page_image_full_width),
   ("page_image_uuid", pvalJson d.page_image_uuid),
   ("dish_name", Json.str (String.mk d.dish_name)),
   ("dish_menus_appeared", pvalJson d.dish_menus_appeared),
   ("dish_times_appeared", Json.num d.dish_times_appeared),
   ("dish_normalized_name", Json.str (String.mk d.dish_normalized_name)),
   ("dish_name_fingerprint", Json.str (String.mk d.dish_name_fingerprint)),
   ("dish_uri", Json.str (String.mk d.dish_uri)),
   ("item_uri", Json.str (String.mk d.item_uri)),
   ("menu_page_uri", Json.str (String.mk d.menu_page_uri)),
   ("menu_uri", Json.str (String.mk d.menu_uri))]

/-- Lookup in the parsed JSON object; keys are unique here, so first
match is dictionary access. -/
def lookupJson : List (String × Json) → String → Option Json
  | [], _ => none
  | (k, v) :: r, key => if k = key then some v else lookupJson r key

/-- The KeyError of a missing item id and the ValueError or TypeError of
a non-numeric one, the MappingError of the spec. -/
inductive MappingError where
  | itemIdMissing
  | itemIdNotNumeric
deriving DecidableEq

/-- The Python int constructor on a stripped character list: an optional
sign then one or more digits. -/
def pyIntOfChars : List Char → Option Int
  | '+' :: ds =>
    if !ds.isEmpty && ds.all Char.isDigit then some (Int.ofNat (digitsToNat ds))
    else none
  | '-' :: ds =>
    if !ds.isEmpty && ds.all Char.isDigit then some (-(Int.ofNat (digitsToNat ds)))
    else none
  | ds =>
    if !ds.isEmpty && ds.all Char.isDigit then some (Int.ofNat (digitsToNat ds))
    else none

/-- Strings the Python int constructor accepts: optional surrounding
whitespace, an optional sign, then one or more digits. -/
def isPyIntString (s : String) : Bool :=
  (pyIntOfChars (pyStrip s.data)).isSome

/-- The Python int constructor on a JSON scalar: numbers pass through,
numeric strings convert, null raises a TypeError. -/
def pyToInt : Json → Option Int
  | Json.num n => some n
  | Json.str s => pyIntOfChars (pyStrip s.data)
  | Json.null => none

/-- A JSON scalar the int constructor rejects. -/
def nonNumericJson : Json → Bool
  | Json.num _ => false
  | Json.str s => !isPyIntString s
  | Json.null => true

/-- One bulk action for the indexing engine. -/
structure EsAction where
  index : String
  type : String
  id : Int
  source : List (String × Json)
deriving DecidableEq

/-- The helper reshape_data of pipeline.py: wrap the parsed row as a bulk
action on the menus index, typed item, identified by the integer item id,
with the whole row as payload. -/
def reshape_data (doc : List (String × Json)) : Except MappingError EsAction :=
  match lookupJson doc "item_id" with
  | none => Except.error MappingError.itemIdMissing
  | some v =>
    match pyToInt v with
    | none => Except.error MappingError.itemIdNotNumeric
    | some n => Except.ok ⟨"menus", "item", n, doc⟩

/-- Modelled from the spec: a well-formed MenuDocument serialization
carries an item id field holding a non-negative integer. -/
def wellFormedMenuDoc (doc : List (String × Json)) : Prop :=
  ∃ n : Int, 0 ≤ n ∧ lookupJson doc "item_id" = some (Json.num n)

/-! The streaming bulk loader and the top level run of load. -/
/-- One per-document acknowledgement from the streaming bulk helper: the
success flag, the popped action verb, the reported identifier and the
reported error of the result dictionary. -/
structure BulkAck where
  ok : Bool
  verb : String
  id : Int
  error : String
deriving DecidableEq

/-- The per-document target path the loop builds for logging and
counting. -/
def docPath (i : Int) : String := "/menus/item/" ++ String.mk (intChars i)

def failMsg (verb path err : String) : String :=
  "Failed to " ++ verb ++ " document " ++ path ++ ": " ++ err

def infoMsg (verb : String) (n : Nat) : String :=
  verb ++ " action succeeded for " ++ String.mk (Nat.toDigits 10 n) ++ " documents"

/-- Counter increment: a missing key starts at one. -/
def counterIncr : List (String × Nat) → String → List (String × Nat)
  | [], key => [(key, 1)]
  | (k, n) :: r, key =>
    if k = key then (k, n + 1) :: r else (k, n) :: counterIncr r key

def sumCounter (c : List (String × Nat)) : Nat := (c.map (fun kv => kv.2)).sum

/-- State of the bulk loop: the per-path success counter, the error log
and the info log. -/
structure BulkState where
  counter : List (String × Nat)
  failures : List String
  infos : List String
deriving DecidableEq

/-- One iteration of the acknowledgement loop of load: a failure is
logged and the loop continues, a success increments the per-path counter;
either way the cumulative success count is logged. -/
def bulkStep (st : BulkState) (a : BulkAck) : BulkState :=
  if a.ok then
    let c := counterIncr st.counter (docPath a.id)
    { counter := c, failures := st.failures,
      infos := st.infos ++ [infoMsg a.verb (sumCounter c)] }
  else
    { counter := st.counter,
      failures := st.failures ++ [failMsg a.verb (docPath a.id) a.error],
      infos := st.infos ++ [infoMsg a.verb (sumCounter st.counter)] }

def bulkLoad (acks : List BulkAck) : BulkState :=
  acks.foldl bulkStep ⟨[], [], []⟩

/-- The run-fatal errors of the taxonomy, each carrying the docstring of
its class and its message. -/
inductive RunError where
  | sourceNotFound (doc msg : String)
  | schemaError (doc msg : String)
  | engineError (doc msg : String)
deriving DecidableEq

def errorClass : RunError → String
  | RunError.sourceNotFound _ _ => "SourceNotFoundError"
  | RunError.schemaError _ _ => "SchemaError"
  | RunError.engineError _ _ => "EngineError"

def errorDoc : RunError → String
  | RunError.sourceNotFound d _ => d
  | RunError.schemaError d _ => d
  | RunError.engineError d _ => d

def errorMsg : RunError → String
  | RunError.sourceNotFound _ m => m
  | RunError.schemaError _ m => m
  | RunError.engineError _ m => m

/-- The single top-level log line of the catch-all handler of load. -/
def topLevelLog (e : RunError) : String :=
  "Something went wrong: " ++ errorClass e ++ " (" ++ errorDoc e ++ "): " ++ errorMsg e

/-- Outcome of one run of load: the bulk-loop state, the top-level error
log, and what the run re-raises to its caller, which is always nothing. -/
structure LoadResult where
  bulk : BulkState
  topLog : List String
  raised : Option RunError
deriving DecidableEq

/-- The function load of pipeline.py around its try block: setup and
transform either raise a run-fatal error, which the single top-level
except logs and swallows, or produce the acknowledgement stream that the
bulk loop consumes; in neither case does load re-raise. -/
def load (run : Except RunError (List BulkAck)) : LoadResult :=
  match run with
  | Except.error e => ⟨⟨[], [], []⟩, [topLevelLog e], none⟩
  | Except.ok acks => ⟨bulkLoad acks, [], none⟩

/-! Concrete data for the witnesses: the end-to-end chicken gumbo row of
the spec, with a missing page height exercising the NaN path. -/
def sampleDish : DishRow := ⟨1, "Chicken Gumbo".data, PVal.int 3, 5⟩

def sampleItem : MenuItemRow :=
  ⟨1, 7, 11, PVal.int 4, PVal.int 5,
    "1900-04-15 12:00:00 UTC".data, "1900-04-15 13:00:00 UTC".data⟩

def samplePage : MenuPageRow :=
  ⟨11, 21, PVal.int 1, PVal.int 9, PVal.nan, PVal.int 400, PVal.str "u1".data⟩

def sampleMenu : MenuRow :=
  ⟨21, PVal.str "Sponsor".data, PVal.str "NYC".data, PVal.str "1900".data,
    PVal.int 2, PVal.int 10⟩

def sampleDoc : MenuDocument :=
  mkDoc sampleItem "19000415T120000+0000".data "19000415T130000+0000".data
    samplePage sampleMenu sampleDish

def sampleDocs : List MenuDocument := [sampleDoc]

def sampleJsonDoc : List (String × Json) :=
  [("item_id", Json.num 7), ("dish_id", Json.num 1)]

/-! Character-level facts about the modelled Python classes. -/
theorem char_eq_iff_toNat {c d : Char} : c = d ↔ c.toNat = d.toNat := by
  constructor
  · intro h; rw [h]
  · intro h; exact Char.ext (UInt32.ext h)

theorem toNat_charOfNat_valid {n : Nat} (h : n.isValidChar) : (Char.ofNat n).toNat = n := by
  unfold Char.ofNat
  rw [dif_pos h]
  rfl

theorem pySpace_iff_toNat {c : Char} :
    pySpace c = true ↔
      (c.toNat = 32 ∨ c.toNat = 9 ∨ c.toNat = 10 ∨ c.toNat = 13 ∨
        c.toNat = 11 ∨ c.toNat = 12) := by
  simp only [pySpace, Bool.or_eq_true, decide_eq_true_eq]
  rw [char_eq_iff_toNat, char_eq_iff_toNat, char_eq_iff_toNat, char_eq_iff_toNat,
    char_eq_iff_toNat, char_eq_iff_toNat]
  tauto

theorem toLower_toNat_of_upper {c : Char} (h1 : 65 ≤ c.toNat) (h2 : c.toNat ≤ 90) :
    (Char.toLower c).toNat = c.toNat + 32 := by
  have hv : (c.toNat + 32).isValidChar := Or.inl (by omega)
  simp only [Char.toLower]
  rw [if_pos ⟨h1, h2⟩]
  exact toNat_charOfNat_valid hv

theorem toLower_eq_self_of_not_upper {c : Char} (h : ¬(65 ≤ c.toNat ∧ c.toNat ≤ 90)) :
    Char.toLower c = c := by
  simp only [Char.toLower]
  rw [if_neg h]

theorem pySpace_toLower (c : Char) : pySpace (Char.toLower c) = pySpace c := by
  by_cases h : 65 ≤ c.toNat ∧ c.toNat ≤ 90
  · have hl := toLower_toNat_of_upper h.1 h.2
    have h1 : pySpace (Char.toLower c) = false := by
      rw [Bool.eq_false_iff]
      intro hsp
      rw [pySpace_iff_toNat] at hsp
      omega
    have h2 : pySpace c = false := by
      rw [Bool.eq_false_iff]
      intro hsp
      rw [pySpace_iff_toNat] at hsp
      omega
    rw [h1, h2]
  · rw [toLower_eq_self_of_not_upper h]

theorem toLower_idem (c : Char) : Char.toLower (Char.toLower c) = Char.toLower c := by
  by_cases h : 65 ≤ c.toNat ∧ c.toNat ≤ 90
  · have hl := toLower_toNat_of_upper h.1 h.2
    apply toLower_eq_self_of_not_upper
    omega
  · rw [toLower_eq_self_of_not_upper h, toLower_eq_self_of_not_upper h]

/-! Facts about the run tokenizer. -/
theorem runTokensAux_ne_nil (w : Char → Bool) :
    ∀ (l acc : List Char) (t : List Char), t ∈ runTokensAux w acc l → t ≠ [] := by
  intro l
  induction l with
  | nil =>
    intro acc t ht
    cases acc with
    | nil => simp [runTokensAux] at ht
    | cons a as =>
      simp [runTokensAux] at ht
      subst ht
      simp
  | cons c cs ih =>
    intro acc t ht
    by_cases hw : w c
    · rw [show runTokensAux w acc (c :: cs) = runTokensAux w (c :: acc) cs from by
        simp [runTokensAux, hw]] at ht
      exact ih _ _ ht
    · cases acc with
      | nil =>
        rw [show runTokensAux w [] (c :: cs) = runTokensAux w [] cs from by
          simp [runTokensAux, hw]] at ht
        exact ih _ _ ht
      | cons a as =>
        rw [show runTokensAux w (a :: as) (c :: cs) =
            (a :: as).reverse :: runTokensAux w [] cs from by
          simp [runTokensAux, hw]] at ht
        rcases List.mem_cons.mp ht with h | h
        · subst h; simp
        · exact ih _ _ h

theorem runTokensAux_word (w : Char → Bool) :
    ∀ (l acc : List Char), (∀ a ∈ acc, w a = true) →
      ∀ t ∈ runTokensAux w acc l, ∀ c ∈ t, w c = true := by
  intro l
  induction l with
  | nil =>
    intro acc hacc t ht c hc
    cases acc with
    | nil => simp [runTokensAux] at ht
    | cons a as =>
      simp [runTokensAux] at ht
      subst ht
      apply hacc c
      have hc' : c ∈ as ∨ c = a := by simpa using hc
      rcases hc' with h | h
      · exact List.mem_cons_of_mem a h
      · exact h ▸ List.mem_cons_self a as
  | cons x cs ih =>
    intro acc hacc t ht c hc
    by_cases hw : w x
    · rw [show runTokensAux w acc (x :: cs) = runTokensAux w (x :: acc) cs from by
        simp [runTokensAux, hw]] at ht
      refine ih _ ?_ t ht c hc
      intro a ha
      rcases List.mem_cons.mp ha with h | h
      · subst h; exact hw
      · exact hacc a h
    · cases acc with
      | nil =>
        rw [show runTokensAux w [] (x :: cs) = runTokensAux w [] cs from by
          simp [runTokensAux, hw]] at ht
        exact ih _ (by simp) t ht c hc
      | cons a as =>
        rw [show runTokensAux w (a :: as) (x :: cs) =
            (a :: as).reverse :: runTokensAux w [] cs from by
          simp [runTokensAux, hw]] at ht
        rcases List.mem_cons.mp ht with h | h
        · subst h; exact hacc c (List.mem_reverse.mp hc)
        · exact ih _ (by simp) t h c hc

theorem runTokensAux_subset (w : Char → Bool) :
    ∀ (l acc : List Char) (t : List Char), t ∈ runTokensAux w acc l →
      ∀ c ∈ t, c ∈ acc ∨ c ∈ l := by
  intro l
  induction l with
  | nil =>
    intro acc t ht c hc
    cases acc with
    | nil => simp [runTokensAux] at ht
    | cons a as =>
      simp [runTokensAux] at ht
      subst ht
      left
      have hc' : c ∈ as ∨ c = a := by simpa using hc
      rcases hc' with h | h
      · exact List.mem_cons_of_mem a h
      · exact h ▸ List.mem_cons_self a as
  | cons x cs ih =>
    intro acc t ht c hc
    by_cases hw : w x
    · rw [show runTokensAux w acc (x :: cs) = runTokensAux w (x :: acc) cs from by
        simp [runTokensAux, hw]] at ht
      rcases ih _ t ht c hc with h | h
      · rcases List.mem_cons.mp h with h' | h'
        · exact Or.inr (h' ▸ List.mem_cons_self x cs)
        · exact Or.inl h'
      · exact Or.inr (List.mem_cons_of_mem x h)
    · cases acc with
      | nil =>
        rw [show runTokensAux w [] (x :: cs) = runTokensAux w [] cs from by
          simp [runTokensAux, hw]] at ht
        rcases ih _ t ht c hc with h | h
        · simp at h
        · exact Or.inr (List.mem_cons_of_mem x h)
      | cons a as =>
        rw [show runTokensAux w (a :: as) (x :: cs) =
            (a :: as).reverse :: runTokensAux w [] cs from by
          simp [runTokensAux, hw]] at ht
        rcases List.mem_cons.mp ht with h | h
        · subst h; exact Or.inl (List.mem_reverse.mp hc)
        · rcases ih _ t h c hc with h' | h'
          · simp at h'
          · exact Or.inr (List.mem_cons_of_mem x h')

theorem runTokensAux_all_word (w : Char → Bool) :
    ∀ (l acc : List Char), (∀ c ∈ l, w c = true) →
      runTokensAux w acc l =
        if (acc.reverse ++ l).isEmpty then [] else [acc.reverse ++ l] := by
  intro l
  induction l with
  | nil =>
    intro acc _
    simp [runTokensAux]
  | cons c cs ih =>
    intro acc hl
    have hw : w c = true := hl c (List.mem_cons_self c cs)
    rw [show runTokensAux w acc (c :: cs) = runTokensAux w (c :: acc) cs from by
      simp [runTokensAux, hw]]
    rw [ih (c :: acc) (fun a ha => hl a (List.mem_cons_of_mem c ha))]
    simp

theorem runTokensAux_token_space (w : Char → Bool) (hw : w ' ' = false) :
    ∀ (t rest acc : List Char), (∀ c ∈ t, w c = true) → (acc = [] → t ≠ []) →
      runTokensAux w acc (t ++ ' ' :: rest) =
        (acc.reverse ++ t) :: runTokensAux w [] rest := by
  intro t
  induction t with
  | nil =>
    intro rest acc _ hne
    cases acc with
    | nil => exact absurd rfl (hne rfl)
    | cons a as =>
      simp only [List.nil_append]
      rw [show runTokensAux w (a :: as) (' ' :: rest) =
          (a :: as).reverse :: runTokensAux w [] rest from by
        simp [runTokensAux, hw]]
      simp
  | cons c t' ih =>
    intro rest acc hword _
    have hc : w c = true := hword c (List.mem_cons_self c t')
    simp only [List.cons_append]
    rw [show runTokensAux w acc (c :: (t' ++ ' ' :: rest)) =
        runTokensAux w (c :: acc) (t' ++ ' ' :: rest) from by
      simp [runTokensAux, hc]]
    rw [ih rest (c :: acc) (fun a ha => hword a (List.mem_cons_of_mem c ha))
      (fun h => absurd h (by simp))]
    simp

theorem runTokens_joinSpace (w : Char → Bool) (hw : w ' ' = false) :
    ∀ toks : List (List Char),
      (∀ t ∈ toks, t ≠ [] ∧ ∀ c ∈ t, w c = true) →
      runTokens w (joinSpace toks) = toks := by
  intro toks
  induction toks with
  | nil => intro _; rfl
  | cons t ts ih =>
    intro h
    have ht := h t (List.mem_cons_self t ts)
    cases ts with
    | nil =>
      show runTokensAux w [] (joinSpace [t]) = [t]
      rw [show joinSpace [t] = t from rfl]
      rw [runTokensAux_all_word w t [] ht.2]
      simp [ht.1]
    | cons t' ts' =>
      show runTokensAux w [] (joinSpace (t :: t' :: ts')) = t :: t' :: ts'
      rw [show joinSpace (t :: t' :: ts') = t ++ ' ' :: joinSpace (t' :: ts') from rfl]
      rw [runTokensAux_token_space w hw t (joinSpace (t' :: ts')) [] ht.2
        (fun _ => ht.1)]
      rw [show ([] : List Char).reverse ++ t = t from by simp]
      have := ih (fun u hu => h u (List.mem_cons_of_mem t hu))
      rw [show runTokens w (joinSpace (t' :: ts')) = runTokensAux w [] (joinSpace (t' :: ts')) from rfl] at this
      rw [this]

theorem runTokensAux_all_bad (w : Char → Bool) :
    ∀ (ss acc : List Char), (∀ c ∈ ss, w c = false) →
      runTokensAux w acc ss = if acc.isEmpty then [] else [acc.reverse] := by
  intro ss
  induction ss with
  | nil => intro acc _; rfl
  | cons c cs ih =>
    intro acc h
    have hc : w c = false := h c (List.mem_cons_self c cs)
    cases acc with
    | nil =>
      rw [show runTokensAux w [] (c :: cs) = runTokensAux w [] cs from by
        simp [runTokensAux, hc]]
      rw [ih [] (fun a ha => h a (List.mem_cons_of_mem c ha))]
    | cons a as =>
      rw [show runTokensAux w (a :: as) (c :: cs) =
          (a :: as).reverse :: runTokensAux w [] cs from by
        simp [runTokensAux, hc]]
      rw [ih [] (fun a' ha => h a' (List.mem_cons_of_mem c ha))]
      simp

theorem runTokensAux_append_bad (w : Char → Bool) :
    ∀ (l ss acc : List Char), (∀ c ∈ ss, w c = false) →
      runTokensAux w acc (l ++ ss) = runTokensAux w acc l := by
  intro l
  induction l with
  | nil =>
    intro ss acc h
    rw [List.nil_append, runTokensAux_all_bad w ss acc h]
    rfl
  | cons c cs ih =>
    intro ss acc h
    by_cases hc : w c
    · rw [show runTokensAux w acc ((c :: cs) ++ ss) =
          runTokensAux w (c :: acc) (cs ++ ss) from by simp [runTokensAux, hc]]
      rw [show runTokensAux w acc (c :: cs) =
          runTokensAux w (c :: acc) cs from by simp [runTokensAux, hc]]
      exact ih ss (c :: acc) h
    · cases acc with
      | nil =>
        rw [show runTokensAux w [] ((c :: cs) ++ ss) =
            runTokensAux w [] (cs ++ ss) from by simp [runTokensAux, hc]]
        rw [show runTokensAux w [] (c :: cs) = runTokensAux w [] cs from by
          simp [runTokensAux, hc]]
        exact ih ss [] h
      | cons a as =>
        rw [show runTokensAux w (a :: as) ((c :: cs) ++ ss) =
            (a :: as).reverse :: runTokensAux w [] (cs ++ ss) from by
          simp [runTokensAux, hc]]
        rw [show runTokensAux w (a :: as) (c :: cs) =
            (a :: as).reverse :: runTokensAux w [] cs from by
          simp [runTokensAux, hc]]
        rw [ih ss [] h]

theorem runTokensAux_dropWhile_bad (w : Char → Bool) :
    ∀ l : List Char,
      runTokensAux w [] (l.dropWhile (fun c => !w c)) = runTokensAux w [] l := by
  intro l
  induction l with
  | nil => rfl
  | cons c cs ih =>
    by_cases hc : w c
    · rw [show (c :: cs).dropWhile (fun c => !w c) = c :: cs from by
        simp [List.dropWhile_cons, hc]]
    · rw [show (c :: cs).dropWhile (fun c => !w c) = cs.dropWhile (fun c => !w c) from by
        simp [List.dropWhile_cons, hc]]
      rw [ih]
      rw [show runTokensAux w [] (c :: cs) = runTokensAux w [] cs from by
        simp [runTokensAux, hc]]

theorem pySplit_pyStrip (l : List Char) : pySplit (pyStrip l) = pySplit l := by
  have hdw : ∀ c : Char, pySpace c = !(!pySpace c) := by intro c; simp
  set w : Char → Bool := fun c => !pySpace c with hw
  set core : List Char := l.dropWhile pySpace with hcore
  have hstep1 : pySplit core = pySplit l := by
    show runTokensAux w [] core = runTokensAux w [] l
    rw [hcore, show l.dropWhile pySpace = l.dropWhile (fun c => !w c) from by
      apply congrArg (l.dropWhile ·) ?_
      funext c
      simp [hw]]
    exact runTokensAux_dropWhile_bad w l
  have hdecomp : core = pyStrip l ++ (core.reverse.takeWhile pySpace).reverse := by
    have h1 : core.reverse.takeWhile pySpace ++ core.reverse.dropWhile pySpace =
        core.reverse := List.takeWhile_append_dropWhile pySpace core.reverse
    have h2 : core = (core.reverse.takeWhile pySpace ++
        core.reverse.dropWhile pySpace).reverse := by
      rw [h1, List.reverse_reverse]
    rw [show pyStrip l = (core.reverse.dropWhile pySpace).reverse from rfl]
    rw [List.reverse_append] at h2
    exact h2
  have hspaces : ∀ c ∈ (core.reverse.takeWhile pySpace).reverse, w c = false := by
    intro c hc
    have : pySpace c = true := List.mem_takeWhile_imp (List.mem_reverse.mp hc)
    simp [hw, this]
  have hstep2 : pySplit (pyStrip l) = pySplit core := by
    show runTokensAux w [] (pyStrip l) = runTokensAux w [] core
    rw [hdecomp]
    exact (runTokensAux_append_bad w (pyStrip l)
      ((core.reverse.takeWhile pySpace).reverse) [] hspaces).symm
  rw [hstep2, hstep1]

theorem dropWhile_pySpace_pyLower (l : List Char) :
    (pyLower l).dropWhile pySpace = pyLower (l.dropWhile pySpace) := by
  induction l with
  | nil => rfl
  | cons c cs ih =>
    show (Char.toLower c :: pyLower cs).dropWhile pySpace = _
    by_cases hc : pySpace c
    · rw [show (Char.toLower c :: pyLower cs).dropWhile pySpace =
          (pyLower cs).dropWhile pySpace from by
        simp [List.dropWhile_cons, pySpace_toLower, hc]]
      rw [show (c :: cs).dropWhile pySpace = cs.dropWhile pySpace from by
        simp [List.dropWhile_cons, hc]]
      exact ih
    · rw [show (Char.toLower c :: pyLower cs).dropWhile pySpace =
          Char.toLower c :: pyLower cs from by
        simp [List.dropWhile_cons, pySpace_toLower, hc]]
      rw [show (c :: cs).dropWhile pySpace = c :: cs from by
        simp [List.dropWhile_cons, hc]]
      rfl

theorem pyStrip_pyLower (l : List Char) : pyStrip (pyLower l) = pyLower (pyStrip l) := by
  show ((( pyLower l).dropWhile pySpace).reverse.dropWhile pySpace).reverse = _
  rw [dropWhile_pySpace_pyLower]
  rw [show (pyLower (l.dropWhile pySpace)).reverse =
      pyLower (l.dropWhile pySpace).reverse from by
    simp [pyLower]]
  rw [dropWhile_pySpace_pyLower]
  simp [pyLower, pyStrip]

theorem mem_joinSpace {c : Char} :
    ∀ toks : List (List Char), c ∈ joinSpace toks → c = ' ' ∨ ∃ t ∈ toks, c ∈ t := by
  intro toks
  induction toks with
  | nil => intro h; simp [joinSpace] at h
  | cons t ts ih =>
    intro h
    cases ts with
    | nil =>
      right
      exact ⟨t, List.mem_cons_self t [], h⟩
    | cons t' ts' =>
      rw [show joinSpace (t :: t' :: ts') = t ++ ' ' :: joinSpace (t' :: ts') from rfl] at h
      rcases List.mem_append.mp h with h1 | h1
      · exact Or.inr ⟨t, List.mem_cons_self t _, h1⟩
      · rcases List.mem_cons.mp h1 with h2 | h2
        · exact Or.inl h2
        · rcases ih h2 with h3 | ⟨u, hu, hcu⟩
          · exact Or.inl h3
          · exact Or.inr ⟨u, List.mem_cons_of_mem t hu, hcu⟩

theorem pyLower_fixed {l : List Char} (h : ∀ c ∈ l, Char.toLower c = c) :
    pyLower l = l := by
  show l.map Char.toLower = l
  rw [List.map_congr_left h]
  exact List.map_id l

/-- Claim C9: normalize_names is idempotent. The proof reduces a second
normalization pass over an already normalized string: stripping is
invisible to splitting, lowering fixes an already lowered string, and
splitting the single-space join of nonempty whitespace-free tokens
recovers exactly those tokens. -/
theorem c9_normalize_names_idempotent (l : List Char) :
    normalize_names (normalize_names l) = normalize_names l := by
  have hfilter : ∀ x : List Char,
      (pySplit x).filter (fun t => !t.isEmpty) = pySplit x := by
    intro x
    rw [List.filter_eq_self]
    intro t ht
    have := runTokensAux_ne_nil (fun c => !pySpace c) x [] t ht
    simpa [List.isEmpty_iff] using this
  have hnorm : ∀ x : List Char, normalize_names x = joinSpace (pySplit (pyLower x)) := by
    intro x
    show joinSpace ((pySplit (pyLower (pyStrip x))).filter (fun t => !t.isEmpty)) = _
    rw [hfilter]
    rw [← pyStrip_pyLower, pySplit_pyStrip]
  rw [hnorm l, hnorm (joinSpace (pySplit (pyLower l)))]
  set T : List (List Char) := pySplit (pyLower l) with hT
  have htoks : ∀ t ∈ T, t ≠ [] ∧ ∀ c ∈ t, (!pySpace c) = true := by
    intro t ht
    refine ⟨runTokensAux_ne_nil _ _ _ t ht, ?_⟩
    intro c hc
    exact runTokensAux_word (fun c => !pySpace c) (pyLower l) [] (by simp) t ht c hc
  have hfixed : ∀ c ∈ joinSpace T, Char.toLower c = c := by
    intro c hc
    rcases mem_joinSpace T hc with h | ⟨t, ht, hct⟩
    · rw [h]; rfl
    · have hcl : c ∈ pyLower l := by
        rcases runTokensAux_subset (fun c => !pySpace c) (pyLower l) [] t ht c hct with h | h
        · simp at h
        · exact h
      rcases List.mem_map.mp hcl with ⟨c', _, hc'⟩
      rw [← hc']
      exact toLower_idem c'
  rw [pyLower_fixed hfixed]
  have : runTokens (fun c => !pySpace c) (joinSpace T) = T :=
    runTokens_joinSpace (fun c => !pySpace c) (by decide) T htoks
  rw [show pySplit (joinSpace T) = runTokens (fun c => !pySpace c) (joinSpace T) from rfl]
  rw [this]

/-! The code-point order on character lists is a decidable linear order. -/
theorem uval_lt_iff {a b : UInt32} : a < b ↔ a.toNat < b.toNat := Iff.rfl

theorem lexLe_cons (x y : Char) (xs ys : List Char) :
    lexLe (x :: xs) (y :: ys) =
      if x.val < y.val then true else if y.val < x.val then false else lexLe xs ys := rfl

theorem lexLe_total : ∀ a b : List Char, lexLe a b = true ∨ lexLe b a = true := by
  intro a
  induction a with
  | nil => intro b; left; rfl
  | cons x xs ih =>
    intro b
    cases b with
    | nil => right; rfl
    | cons y ys =>
      rcases Nat.lt_trichotomy x.val.toNat y.val.toNat with h | h | h
      · left
        rw [lexLe_cons, if_pos (uval_lt_iff.mpr h)]
      · have h1 : ¬ x.val < y.val := fun hc => by
          have := uval_lt_iff.mp hc; omega
        have h2 : ¬ y.val < x.val := fun hc => by
          have := uval_lt_iff.mp hc; omega
        rcases ih ys with h' | h'
        · left
          rw [lexLe_cons, if_neg h1, if_neg h2]
          exact h'
        · right
          rw [lexLe_cons, if_neg h2, if_neg h1]
          exact h'
      · right
        rw [lexLe_cons, if_pos (uval_lt_iff.mpr h)]

theorem lexLe_trans :
    ∀ a b c : List Char, lexLe a b = true → lexLe b c = true → lexLe a c = true := by
  intro a
  induction a with
  | nil => intro b c _ _; rfl
  | cons x xs ih =>
    intro b c hab hbc
    cases b with
    | nil => simp [lexLe] at hab
    | cons y ys =>
      cases c with
      | nil => simp [lexLe] at hbc
      | cons z zs =>
        rw [lexLe_cons] at hab hbc
        rw [lexLe_cons]
        have hxy : ¬ y.val.toNat < x.val.toNat := by
          intro h
          have h1 : ¬ x.val < y.val := fun hc => by
            have := uval_lt_iff.mp hc; omega
          rw [if_neg h1, if_pos (uval_lt_iff.mpr h)] at hab
          exact Bool.false_ne_true hab
        have hyz : ¬ z.val.toNat < y.val.toNat := by
          intro h
          have h1 : ¬ y.val < z.val := fun hc => by
            have := uval_lt_iff.mp hc; omega
          rw [if_neg h1, if_pos (uval_lt_iff.mpr h)] at hbc
          exact Bool.false_ne_true hbc
        rcases Nat.lt_trichotomy x.val.toNat z.val.toNat with h | h | h
        · rw [if_pos (uval_lt_iff.mpr h)]
        · have hxz1 : ¬ x.val < z.val := fun hc => by
            have := uval_lt_iff.mp hc; omega
          have hxz2 : ¬ z.val < x.val := fun hc => by
            have := uval_lt_iff.mp hc; omega
          rw [if_neg hxz1, if_neg hxz2]
          have hxy2 : ¬ x.val < y.val := fun hc => by
            have := uval_lt_iff.mp hc; omega
          have hyz2 : ¬ y.val < z.val := fun hc => by
            have := uval_lt_iff.mp hc; omega
          have hyx : ¬ y.val < x.val := fun hc => by
            have := uval_lt_iff.mp hc; omega
          have hzy : ¬ z.val < y.val := fun hc => by
            have := uval_lt_iff.mp hc; omega
          rw [if_neg hxy2, if_neg hyx] at hab
          rw [if_neg hyz2, if_neg hzy] at hbc
          exact ih ys zs hab hbc
        · exfalso
          omega

theorem lexLe_antisymm :
    ∀ a b : List Char, lexLe a b = true → lexLe b a = true → a = b := by
  intro a
  induction a with
  | nil =>
    intro b _ hba
    cases b with
    | nil => rfl
    | cons y ys => simp [lexLe] at hba
  | cons x xs ih =>
    intro b hab hba
    cases b with
    | nil => simp [lexLe] at hab
    | cons y ys =>
      rw [lexLe_cons] at hab hba
      have hxy : ¬ y.val.toNat < x.val.toNat := by
        intro h
        have h1 : ¬ x.val < y.val := fun hc => by
          have := uval_lt_iff.mp hc; omega
        rw [if_neg h1, if_pos (uval_lt_iff.mpr h)] at hab
        exact Bool.false_ne_true hab
      have hyx : ¬ x.val.toNat < y.val.toNat := by
        intro h
        have h1 : ¬ y.val < x.val := fun hc => by
          have := uval_lt_iff.mp hc; omega
        rw [if_neg h1, if_pos (uval_lt_iff.mpr h)] at hba
        exact Bool.false_ne_true hba
      have hval : x.val.toNat = y.val.toNat := by omega
      have hx : x = y := Char.ext (UInt32.ext hval)
      have h1 : ¬ x.val < y.val := fun hc => by
        have := uval_lt_iff.mp hc; omega
      have h2 : ¬ y.val < x.val := fun hc => by
        have := uval_lt_iff.mp hc; omega
      rw [if_neg h1, if_neg h2] at hab
      rw [if_neg h2, if_neg h1] at hba
      rw [hx, ih ys hab hba]

/-! Facts about first-seen deduplication and sorting. -/
theorem dedupSeen_mem :
    ∀ (ts seen : List (List Char)) (u : List Char),
      u ∈ dedupSeen seen ts ↔ (u ∈ ts ∧ u ∉ seen) := by
  intro ts
  induction ts with
  | nil => intro seen u; simp [dedupSeen]
  | cons a ts ih =>
    intro seen u
    by_cases ha : a ∈ seen
    · rw [show dedupSeen seen (a :: ts) = dedupSeen seen ts from by
        simp [dedupSeen, ha]]
      rw [ih seen u]
      constructor
      · rintro ⟨h1, h2⟩
        exact ⟨List.mem_cons_of_mem a h1, h2⟩
      · rintro ⟨h1, h2⟩
        rcases List.mem_cons.mp h1 with h3 | h3
        · exact absurd (h3 ▸ ha) h2
        · exact ⟨h3, h2⟩
    · rw [show dedupSeen seen (a :: ts) = a :: dedupSeen (a :: seen) ts from by
        simp [dedupSeen, ha]]
      constructor
      · intro h
        rcases List.mem_cons.mp h with h1 | h1
        · exact ⟨h1 ▸ List.mem_cons_self a ts, h1 ▸ ha⟩
        · have := (ih (a :: seen) u).mp h1
          refine ⟨List.mem_cons_of_mem a this.1, ?_⟩
          intro hseen
          exact this.2 (List.mem_cons_of_mem a hseen)
      · rintro ⟨h1, h2⟩
        rcases List.mem_cons.mp h1 with h3 | h3
        · exact h3 ▸ List.mem_cons_self a _
        · by_cases hau : u = a
          · exact hau ▸ List.mem_cons_self a _
          · refine List.mem_cons_of_mem a ((ih (a :: seen) u).mpr ⟨h3, ?_⟩)
            intro hmem
            rcases List.mem_cons.mp hmem with h4 | h4
            · exact hau h4
            · exact h2 h4

theorem dedupSeen_nodup :
    ∀ (ts seen : List (List Char)), (dedupSeen seen ts).Nodup := by
  intro ts
  induction ts with
  | nil => intro seen; simp [dedupSeen]
  | cons a ts ih =>
    intro seen
    by_cases ha : a ∈ seen
    · rw [show dedupSeen seen (a :: ts) = dedupSeen seen ts from by
        simp [dedupSeen, ha]]
      exact ih seen
    · rw [show dedupSeen seen (a :: ts) = a :: dedupSeen (a :: seen) ts from by
        simp [dedupSeen, ha]]
      refine List.nodup_cons.mpr ⟨?_, ih (a :: seen)⟩
      intro hmem
      exact ((dedupSeen_mem ts (a :: seen) a).mp hmem).2 (List.mem_cons_self a seen)

theorem sortLex_sorted (ts : List (List Char)) : List.Sorted lexRel (sortLex ts) := by
  haveI : IsTotal (List Char) lexRel := ⟨fun a b => lexLe_total a b⟩
  haveI : IsTrans (List Char) lexRel := ⟨fun a b c => lexLe_trans a b c⟩
  exact List.sorted_insertionSort lexRel ts

theorem sortLex_perm (ts : List (List Char)) : List.Perm (sortLex ts) ts :=
  List.perm_insertionSort lexRel ts

theorem sortLex_congr {ts₁ ts₂ : List (List Char)} (h : List.Perm ts₁ ts₂) :
    sortLex ts₁ = sortLex ts₂ := by
  haveI : IsAntisymm (List Char) lexRel := ⟨fun a b => lexLe_antisymm a b⟩
  exact List.eq_of_perm_of_sorted
    ((sortLex_perm ts₁).trans (h.trans (sortLex_perm ts₂).symm))
    (sortLex_sorted ts₁) (sortLex_sorted ts₂)

theorem fingerprint_eq_of_token_set {l₁ l₂ : List Char}
    (h : ∀ t, t ∈ alphanumeric_tokens l₁ ↔ t ∈ alphanumeric_tokens l₂) :
    fingerprint l₁ = fingerprint l₂ := by
  show joinSpace (sortLex (dedupSeen [] (alphanumeric_tokens l₁))) = _
  congr 1
  apply sortLex_congr
  rw [List.perm_ext_iff_of_nodup (dedupSeen_nodup _ _) (dedupSeen_nodup _ _)]
  intro t
  rw [dedupSeen_mem, dedupSeen_mem]
  simp [h t]

/-! Equivalence of single-character splitting plus empty-piece filtering
with maximal-run tokenization. -/
theorem reSplitAux_filter :
    ∀ (l acc : List Char),
      (reSplitAux acc l).filter (fun t => !t.isEmpty) = runTokensAux wordChar acc l := by
  intro l
  induction l with
  | nil =>
    intro acc
    cases acc with
    | nil => rfl
    | cons a as =>
      show ([(a :: as).reverse].filter (fun t => !t.isEmpty)) = _
      rw [show runTokensAux wordChar (a :: as) [] = [(a :: as).reverse] from by
        simp [runTokensAux]]
      rw [List.filter_cons]
      simp
  | cons c cs ih =>
    intro acc
    by_cases hc : wordChar c
    · rw [show reSplitAux acc (c :: cs) = reSplitAux (c :: acc) cs from by
        simp [reSplitAux, hc]]
      rw [show runTokensAux wordChar acc (c :: cs) =
          runTokensAux wordChar (c :: acc) cs from by simp [runTokensAux, hc]]
      exact ih (c :: acc)
    · rw [show reSplitAux acc (c :: cs) = acc.reverse :: reSplitAux [] cs from by
        simp [reSplitAux, hc]]
      rw [List.filter_cons]
      cases acc with
      | nil =>
        rw [show runTokensAux wordChar [] (c :: cs) = runTokensAux wordChar [] cs from by
          simp [runTokensAux, hc]]
        simpa using ih []
      | cons a as =>
        rw [show runTokensAux wordChar (a :: as) (c :: cs) =
            (a :: as).reverse :: runTokensAux wordChar [] cs from by
          simp [runTokensAux, hc]]
        have hne : (!(a :: as).reverse.isEmpty) = true := by simp
        rw [hne, if_pos rfl, ih []]

theorem alphanumeric_tokens_eq_runTokens (l : List Char) :
    alphanumeric_tokens l = runTokens wordChar l :=
  reSplitAux_filter l []

/-! Claim theorems for the text normalizer. -/
/-- Claim C1, counterexample: on the input a underscore b, fingerprint
keeps the underscore inside a single token, while the claimed procedure
with the underscore as a boundary splits the input in two tokens. The
boolean comparison records that the two results differ. -/
theorem c1_counterexample :
    fingerprint c1Input = ['a', '_', 'b'] ∧
      fingerprintClaimC1 c1Input = ['a', ' ', 'b'] ∧
      (fingerprint c1Input == fingerprintClaimC1 c1Input) = false := by
  refine ⟨by decide, by decide, by decide⟩

/-- Claim C1, amended: fingerprint equals the procedure that splits on
maximal runs of non-word characters, where the underscore counts as a word
character and stays inside tokens, discards empty tokens, deduplicates,
sorts by code point and joins with single spaces. -/
theorem c1_fingerprint_eq_runs (l : List Char) : fingerprint l = fingerprintRuns l := by
  show joinSpace (sortLex (dedupSeen [] (alphanumeric_tokens l))) = _
  rw [alphanumeric_tokens_eq_runTokens]
  rfl

/-- Claim C6: two inputs whose token lists contain the same set of
distinct tokens have equal fingerprints; order and repetition of tokens do
not matter. -/
theorem c6_fingerprint_token_set_invariant (l₁ l₂ : List Char)
    (h : ∀ t, t ∈ alphanumeric_tokens l₁ ↔ t ∈ alphanumeric_tokens l₂) :
    fingerprint l₁ = fingerprint l₂ :=
  fingerprint_eq_of_token_set h

/-- Claim C6, witness: fingerprint of beef stew stew equals fingerprint of
stew beef, through the invariance theorem applied at those inputs. -/
theorem c6_witness : fingerprint c6InputA = fingerprint c6InputB := by
  have hA : alphanumeric_tokens c6InputA =
      [['b', 'e', 'e', 'f'], ['s', 't', 'e', 'w'], ['s', 't', 'e', 'w']] := by decide
  have hB : alphanumeric_tokens c6InputB =
      [['s', 't', 'e', 'w'], ['b', 'e', 'e', 'f']] := by decide
  refine c6_fingerprint_token_set_invariant c6InputA c6InputB ?_
  intro t
  rw [hA, hB]
  simp only [List.mem_cons, List.not_mem_nil, or_false]
  tauto

/-! Parsing lemmas for the fixed timestamp format. -/
theorem isDigit_iff_toNat {c : Char} :
    Char.isDigit c = true ↔ (48 ≤ c.toNat ∧ c.toNat ≤ 57) := by
  show (decide (c.val ≥ 48) && decide (c.val ≤ 57)) = true ↔ _
  simp only [Bool.and_eq_true, decide_eq_true_eq]
  constructor
  · rintro ⟨h1, h2⟩
    exact ⟨h1, h2⟩
  · rintro ⟨h1, h2⟩
    exact ⟨h1, h2⟩

theorem pySpace_not_digit {c : Char} (h : pySpace c = true) : Char.isDigit c = false := by
  rw [pySpace_iff_toNat] at h
  rw [Bool.eq_false_iff]
  intro hd
  rw [isDigit_iff_toNat] at hd
  omega

theorem digit_not_pySpace {c : Char} (h : Char.isDigit c = true) : pySpace c = false := by
  rw [isDigit_iff_toNat] at h
  rw [Bool.eq_false_iff]
  intro hs
  rw [pySpace_iff_toNat] at hs
  omega

theorem takeWhile_append_stop (p : Char → Bool) :
    ∀ (xs r : List Char), (∀ c ∈ xs, p c = true) →
      (∀ c, r.head? = some c → p c = false) →
      (xs ++ r).takeWhile p = xs ∧ (xs ++ r).dropWhile p = r := by
  intro xs
  induction xs with
  | nil =>
    intro r _ hr
    cases r with
    | nil => exact ⟨rfl, rfl⟩
    | cons c r' =>
      have := hr c rfl
      constructor
      · simp [List.takeWhile_cons, this]
      · simp [List.dropWhile_cons, this]
  | cons x xs ih =>
    intro r hxs hr
    have hx : p x = true := hxs x (List.mem_cons_self x xs)
    have := ih r (fun c hc => hxs c (List.mem_cons_of_mem x hc)) hr
    constructor
    · simp [List.takeWhile_cons, hx, this.1]
    · simp [List.dropWhile_cons, hx, this.2]

theorem parseYear_sound {l : List Char} {y : Nat} {r : List Char}
    (h : parseYear l = some (y, r)) :
    ∃ yd, l = yd ++ r ∧ (∀ c ∈ yd, Char.isDigit c = true) ∧ yd.length = 4 ∧
      y = digitsToNat yd := by
  unfold parseYear at h
  by_cases hlen : (l.takeWhile Char.isDigit).length = 4
  · rw [if_pos hlen] at h
    refine ⟨l.takeWhile Char.isDigit, ?_, ?_, hlen, ?_⟩
    · have heq : some (digitsToNat (l.takeWhile Char.isDigit), l.dropWhile Char.isDigit)
          = some (y, r) := h
      have hr : r = l.dropWhile Char.isDigit := by
        injection heq with heq'
        exact (congrArg Prod.snd heq').symm
      rw [hr]
      exact (List.takeWhile_append_dropWhile Char.isDigit l).symm
    · intro c hc
      exact List.mem_takeWhile_imp hc
    · injection h with h'
      exact (congrArg Prod.fst h').symm
  · rw [if_neg hlen] at h
    exact absurd h (by simp)

theorem parse2_sound {l : List Char} {n : Nat} {r : List Char}
    (h : parse2 l = some (n, r)) :
    ∃ ds, l = ds ++ r ∧ (∀ c ∈ ds, Char.isDigit c = true) ∧
      (ds.length = 1 ∨ ds.length = 2) ∧ n = digitsToNat ds := by
  unfold parse2 at h
  by_cases hlen : (l.takeWhile Char.isDigit).length = 1 ∨
      (l.takeWhile Char.isDigit).length = 2
  · rw [if_pos hlen] at h
    refine ⟨l.takeWhile Char.isDigit, ?_, ?_, hlen, ?_⟩
    · have hr : r = l.dropWhile Char.isDigit := by
        injection h with h'
        exact (congrArg Prod.snd h').symm
      rw [hr]
      exact (List.takeWhile_append_dropWhile Char.isDigit l).symm
    · intro c hc
      exact List.mem_takeWhile_imp hc
    · injection h with h'
      exact (congrArg Prod.fst h').symm
  · rw [if_neg hlen] at h
    exact absurd h (by simp)

theorem parseSpaces_sound {l r : List Char} (h : parseSpaces l = some r) :
    ∃ ss, l = ss ++ r ∧ (∀ c ∈ ss, pySpace c = true) ∧ ss ≠ [] := by
  unfold parseSpaces at h
  by_cases hE : (l.takeWhile pySpace).isEmpty
  · rw [if_pos hE] at h
    exact absurd h (by simp)
  · rw [if_neg hE] at h
    refine ⟨l.takeWhile pySpace, ?_, ?_, ?_⟩
    · have hr : r = l.dropWhile pySpace := by injection h with h'; exact h'.symm
      rw [hr]
      exact (List.takeWhile_append_dropWhile pySpace l).symm
    · intro c hc
      exact List.mem_takeWhile_imp hc
    · intro hnil
      rw [hnil] at hE
      exact hE rfl

theorem expectChar_sound {c : Char} {l r : List Char} (h : expectChar c l = some r) :
    l = c :: r := by
  cases l with
  | nil => exact absurd h (by simp [expectChar])
  | cons x l' =>
    rw [show expectChar c (x :: l') = if x = c then some l' else none from rfl] at h
    by_cases hx : x = c
    · rw [if_pos hx] at h
      injection h with h'
      rw [hx, h']
    · rw [if_neg hx] at h
      exact absurd h (by simp)

theorem parseYear_complete {yd r : List Char}
    (hd : ∀ c ∈ yd, Char.isDigit c = true) (hl : yd.length = 4)
    (hr : ∀ c, r.head? = some c → Char.isDigit c = false) :
    parseYear (yd ++ r) = some (digitsToNat yd, r) := by
  have hsplit := takeWhile_append_stop Char.isDigit yd r hd hr
  unfold parseYear
  rw [hsplit.1, hsplit.2, if_pos hl]

theorem parse2_complete {ds r : List Char}
    (hd : ∀ c ∈ ds, Char.isDigit c = true) (hl : ds.length = 1 ∨ ds.length = 2)
    (hr : ∀ c, r.head? = some c → Char.isDigit c = false) :
    parse2 (ds ++ r) = some (digitsToNat ds, r) := by
  have hsplit := takeWhile_append_stop Char.isDigit ds r hd hr
  unfold parse2
  rw [hsplit.1, hsplit.2, if_pos hl]

theorem parseSpaces_complete {ss r : List Char}
    (hs : ∀ c ∈ ss, pySpace c = true) (hne : ss ≠ [])
    (hr : ∀ c, r.head? = some c → pySpace c = false) :
    parseSpaces (ss ++ r) = some r := by
  have hsplit := takeWhile_append_stop pySpace ss r hs hr
  unfold parseSpaces
  rw [hsplit.1, hsplit.2]
  rw [if_neg (by simp [List.isEmpty_iff, hne])]

theorem expectChar_complete (c : Char) (r : List Char) : expectChar c (c :: r) = some r := by
  simp [expectChar]

theorem tzAccepted_head {tz : List Char} (h : tzAccepted tz = true) :
    ∃ c r, tz = c :: r ∧ pySpace c = false ∧ Char.isDigit c = false := by
  cases tz with
  | nil => simp [tzAccepted, acceptedTzNames] at h
  | cons c r =>
    refine ⟨c, r, rfl, ?_, ?_⟩
    all_goals {
      have hc : Char.toLower c = 'u' ∨ Char.toLower c = 'g' := by
        simp [tzAccepted, acceptedTzNames] at h
        rcases h with ⟨h1, _⟩ | ⟨h1, _⟩
        · exact Or.inl h1
        · exact Or.inr h1
      first
      | { rw [← pySpace_toLower c]
          rcases hc with h1 | h1 <;> rw [h1] <;> rfl }
      | { rw [Bool.eq_false_iff]
          intro hd
          rw [isDigit_iff_toNat] at hd
          have hself : Char.toLower c = c :=
            toLower_eq_self_of_not_upper (by omega)
          rw [hself] at hc
          have : c.toNat = 117 ∨ c.toNat = 103 := by
            rcases hc with h1 | h1
            · left; rw [h1]; rfl
            · right; rw [h1]; rfl
          omega }
    }

theorem parseTimestamp_sound {l : List Char} {t : TimeStamp}
    (h : parseTimestamp l = some t) : matchesTimestampPattern l := by
  unfold parseTimestamp parseTimestampWith at h
  split at h
  · exact absurd h (by simp)
  rename_i y r1 hy
  split at h
  · exact absurd h (by simp)
  rename_i r2 h2
  split at h
  · exact absurd h (by simp)
  rename_i m r3 h3
  split at h
  · exact absurd h (by simp)
  rename_i r4 h4
  split at h
  · exact absurd h (by simp)
  rename_i d r5 h5
  split at h
  · exact absurd h (by simp)
  rename_i r6 h6
  split at h
  · exact absurd h (by simp)
  rename_i hv r7 h7
  split at h
  · exact absurd h (by simp)
  rename_i r8 h8
  split at h
  · exact absurd h (by simp)
  rename_i mi r9 h9
  split at h
  · exact absurd h (by simp)
  rename_i r10 h10
  split at h
  · exact absurd h (by simp)
  rename_i s r11 h11
  split at h
  · exact absurd h (by simp)
  rename_i r12 h12
  split at h
  · rename_i hif
    obtain ⟨yd, hl, hyd, hydlen, hyval⟩ := parseYear_sound hy
    have hr1 : r1 = '-' :: r2 := expectChar_sound h2
    obtain ⟨md, hl2, hmd, hmdlen, hmval⟩ := parse2_sound h3
    have hr3 : r3 = '-' :: r4 := expectChar_sound h4
    obtain ⟨dd, hl4, hdd, hddlen, hdval⟩ := parse2_sound h5
    obtain ⟨ws1, hl5, hws1, hws1ne⟩ := parseSpaces_sound h6
    obtain ⟨hd, hl6, hhd, hhdlen, hhval⟩ := parse2_sound h7
    have hr7 : r7 = ':' :: r8 := expectChar_sound h8
    obtain ⟨mid, hl8, hmid, hmidlen, hmival⟩ := parse2_sound h9
    have hr9 : r9 = ':' :: r10 := expectChar_sound h10
    obtain ⟨sd, hl10, hsd, hsdlen, hsval⟩ := parse2_sound h11
    obtain ⟨ws2, hl11, hws2, hws2ne⟩ := parseSpaces_sound h12
    refine ⟨yd, md, dd, ws1, hd, mid, sd, ws2, r12, ?_, hyd, hydlen, hmd, hmdlen,
      hdd, hddlen, hws1, hws1ne, hhd, hhdlen, hmid, hmidlen, hsd, hsdlen,
      hws2, hws2ne, hif.2, ?_⟩
    · rw [hl, hr1, hl2, hr3, hl4, hl5, hl6, hr7, hl8, hr9, hl10, hl11]
    · rw [← hyval, ← hmval, ← hdval, ← hhval, ← hmival, ← hsval]
      exact hif.1
  · exact absurd h (by simp)

theorem parseTimestamp_complete {l : List Char} (h : matchesTimestampPattern l) :
    ∃ t : TimeStamp, parseTimestamp l = some t := by
  obtain ⟨yd, md, dd, ws1, hd, mid, sd, ws2, tz, hleq, hyd, hydlen, hmd, hmdlen,
    hdd, hddlen, hws1, hws1ne, hhd, hhdlen, hmid, hmidlen, hsd, hsdlen,
    hws2, hws2ne, htz, hvt⟩ := h
  obtain ⟨tzc, tzr, htzeq, htzs, _⟩ := tzAccepted_head htz
  have hhdne : hd ≠ [] := by
    rcases hhdlen with hcase | hcase <;>
      · intro hn
        rw [hn] at hcase
        simp at hcase
  have hws1head : ∀ c, (ws1 ++ (hd ++ ':' :: (mid ++ ':' ::
      (sd ++ (ws2 ++ tz))))).head? = some c → Char.isDigit c = false := by
    intro c hc
    rw [List.head?_append_of_ne_nil _ hws1ne] at hc
    exact pySpace_not_digit (hws1 c (List.mem_of_mem_head? hc))
  have hhdhead : ∀ c, (hd ++ ':' :: (mid ++ ':' ::
      (sd ++ (ws2 ++ tz)))).head? = some c → pySpace c = false := by
    intro c hc
    rw [List.head?_append_of_ne_nil _ hhdne] at hc
    exact digit_not_pySpace (hhd c (List.mem_of_mem_head? hc))
  have hws2head : ∀ c, (ws2 ++ tz).head? = some c → Char.isDigit c = false := by
    intro c hc
    rw [List.head?_append_of_ne_nil _ hws2ne] at hc
    exact pySpace_not_digit (hws2 c (List.mem_of_mem_head? hc))
  have htzhead : ∀ c, tz.head? = some c → pySpace c = false := by
    intro c hc
    rw [htzeq] at hc
    injection hc with hc'
    rw [← hc']
    exact htzs
  have hdash : ∀ (r : List Char) (c : Char),
      ('-' :: r).head? = some c → Char.isDigit c = false := by
    intro r c hc
    injection hc with hc'
    rw [← hc']
    rfl
  have hcolon : ∀ (r : List Char) (c : Char),
      (':' :: r).head? = some c → Char.isDigit c = false := by
    intro r c hc
    injection hc with hc'
    rw [← hc']
    rfl
  have e1 : parseYear l = some (digitsToNat yd, '-' :: (md ++ '-' :: (dd ++ (ws1 ++
      (hd ++ ':' :: (mid ++ ':' :: (sd ++ (ws2 ++ tz)))))))) := by
    rw [hleq]
    exact parseYear_complete hyd hydlen (hdash _)
  have e2 : expectChar '-' ('-' :: (md ++ '-' :: (dd ++ (ws1 ++
      (hd ++ ':' :: (mid ++ ':' :: (sd ++ (ws2 ++ tz)))))))) =
      some (md ++ '-' :: (dd ++ (ws1 ++
        (hd ++ ':' :: (mid ++ ':' :: (sd ++ (ws2 ++ tz))))))) :=
    expectChar_complete '-' _
  have e3 : parse2 (md ++ '-' :: (dd ++ (ws1 ++
      (hd ++ ':' :: (mid ++ ':' :: (sd ++ (ws2 ++ tz))))))) =
      some (digitsToNat md, '-' :: (dd ++ (ws1 ++
        (hd ++ ':' :: (mid ++ ':' :: (sd ++ (ws2 ++ tz))))))) :=
    parse2_complete hmd hmdlen (hdash _)
  have e4 : expectChar '-' ('-' :: (dd ++ (ws1 ++
      (hd ++ ':' :: (mid ++ ':' :: (sd ++ (ws2 ++ tz))))))) =
      some (dd ++ (ws1 ++ (hd ++ ':' :: (mid ++ ':' :: (sd ++ (ws2 ++ tz)))))) :=
    expectChar_complete '-' _
  have e5 : parse2 (dd ++ (ws1 ++ (hd ++ ':' :: (mid ++ ':' ::
      (sd ++ (ws2 ++ tz)))))) =
      some (digitsToNat dd, ws1 ++ (hd ++ ':' :: (mid ++ ':' ::
        (sd ++ (ws2 ++ tz))))) :=
    parse2_complete hdd hddlen hws1head
  have e6 : parseSpaces (ws1 ++ (hd ++ ':' :: (mid ++ ':' ::
      (sd ++ (ws2 ++ tz))))) =
      some (hd ++ ':' :: (mid ++ ':' :: (sd ++ (ws2 ++ tz)))) :=
    parseSpaces_complete hws1 hws1ne hhdhead
  have e7 : parse2 (hd ++ ':' :: (mid ++ ':' :: (sd ++ (ws2 ++ tz)))) =
      some (digitsToNat hd, ':' :: (mid ++ ':' :: (sd ++ (ws2 ++ tz)))) :=
    parse2_complete hhd hhdlen (hcolon _)
  have e8 : expectChar ':' (':' :: (mid ++ ':' :: (sd ++ (ws2 ++ tz)))) =
      some (mid ++ ':' :: (sd ++ (ws2 ++ tz))) :=
    expectChar_complete ':' _
  have e9 : parse2 (mid ++ ':' :: (sd ++ (ws2 ++ tz))) =
      some (digitsToNat mid, ':' :: (sd ++ (ws2 ++ tz))) :=
    parse2_complete hmid hmidlen (hcolon _)
  have e10 : expectChar ':' (':' :: (sd ++ (ws2 ++ tz))) =
      some (sd ++ (ws2 ++ tz)) :=
    expectChar_complete ':' _
  have e11 : parse2 (sd ++ (ws2 ++ tz)) = some (digitsToNat sd, ws2 ++ tz) :=
    parse2_complete hsd hsdlen hws2head
  have e12 : parseSpaces (ws2 ++ tz) = some tz :=
    parseSpaces_complete hws2 hws2ne htzhead
  refine ⟨⟨digitsToNat yd, digitsToNat md, digitsToNat dd, digitsToNat hd,
    digitsToNat mid, digitsToNat sd⟩, ?_⟩
  unfold parseTimestamp parseTimestampWith
  simp only [e1, e2, e3, e4, e5, e6, e7, e8, e9, e10, e11, e12]
  rw [if_pos ⟨hvt, htz⟩]

/-- Claim C4, amended: reformat_dates succeeds exactly on inputs of the
fixed pattern with one to two digit month, day, hour, minute and second
fields, whitespace runs as separators, a calendar-valid timestamp and a
timezone abbreviation the platform parser accepts, which in a UTC
process means utc or gmt case-insensitively; every success renders the
compact form with the zero offset of UTC attached, the year unpadded as
the platform strftime leaves it. -/
theorem c4_reformat_dates_characterization (l : List Char) :
    ((∃ out, reformat_dates l = Except.ok out) ↔ matchesTimestampPattern l) ∧
      (∀ out, reformat_dates l = Except.ok out → ∃ t : TimeStamp,
        parseTimestamp l = some t ∧
        out = Nat.toDigits 10 t.year ++ pad2 t.month ++ pad2 t.day ++
          'T' :: (pad2 t.hour ++ pad2 t.minute ++ pad2 t.second ++
            ['+', '0', '0', '0', '0'])) := by
  constructor
  · constructor
    · rintro ⟨out, hout⟩
      unfold reformat_dates at hout
      cases hp : parseTimestamp l with
      | none => rw [hp] at hout; exact absurd hout (by simp)
      | some t => exact parseTimestamp_sound hp
    · intro hp
      obtain ⟨t, ht⟩ := parseTimestamp_complete hp
      refine ⟨formatCompact t, ?_⟩
      unfold reformat_dates
      rw [ht]
  · intro out hout
    unfold reformat_dates at hout
    cases hp : parseTimestamp l with
    | none => rw [hp] at hout; exact absurd hout (by simp)
    | some t =>
      rw [hp] at hout
      injection hout with hout'
      exact ⟨t, rfl, hout'.symm⟩

/-- Claim C4, counterexample: the input with the abbreviation EST matches
the claimed pattern, witnessed by the parser that accepts any alphabetic
abbreviation, yet reformat_dates raises, because the strptime zone
directive only accepts utc and gmt in a UTC process; the companion UTC
input succeeds and shows the compact output form. -/
theorem c4_counterexample :
    (parseTimestampWith tzAnyAbbrev c4EstInput).isSome = true ∧
      reformat_dates c4EstInput = Except.error ParseError.invalidFormat ∧
      reformat_dates c4UtcInput = Except.ok "20110328T150044+0000".data :=
  ⟨by decide, rfl, rfl⟩

/-! Positional facts about mapE and membership in the join. -/
theorem mapE_ok_length {α β ε : Type} {f : α → Except ε β} :
    ∀ {l : List α} {l' : List β}, mapE f l = Except.ok l' → l'.length = l.length := by
  intro l
  induction l with
  | nil =>
    intro l' h
    unfold mapE at h
    injection h with h'
    rw [← h']
    rfl
  | cons x xs ih =>
    intro l' h
    unfold mapE at h
    split at h
    · exact absurd h (by simp)
    · exact absurd h (by simp)
    · rename_i y ys hfx hrec
      injection h with h'
      rw [← h']
      simp [ih hrec]

theorem mapE_ok_get {α β ε : Type} {f : α → Except ε β} :
    ∀ {l : List α} {l' : List β}, mapE f l = Except.ok l' →
      ∀ (i : Nat) (h1 : i < l.length) (h2 : i < l'.length),
        f (l.get ⟨i, h1⟩) = Except.ok (l'.get ⟨i, h2⟩) := by
  intro l
  induction l with
  | nil =>
    intro l' _ i h1
    simp at h1
  | cons x xs ih =>
    intro l' h i h1 h2
    unfold mapE at h
    split at h
    · exact absurd h (by simp)
    · exact absurd h (by simp)
    · rename_i y ys hfx hrec
      injection h with h'
      subst h'
      cases i with
      | zero => simpa using hfx
      | succ j =>
        exact ih hrec j (by simpa using h1) (by simpa using h2)

theorem load_and_tranform_mem
    {dishes : List DishRow} {items : List MenuItemRow} {pages : List MenuPageRow}
    {menus : List MenuRow} {docs : List MenuDocument}
    (h : load_and_tranform dishes items pages menus = Except.ok docs)
    (doc : MenuDocument) :
    doc ∈ docs ↔ ∃ it ∈ items, ∃ ca ua : List Char,
      reformat_dates it.created_at = Except.ok ca ∧
      reformat_dates it.updated_at = Except.ok ua ∧
      ∃ pg ∈ pages, pg.id = it.menu_page_id ∧
      ∃ mn ∈ menus, mn.id = pg.menu_id ∧
      ∃ dsh ∈ dishes, dsh.id = it.dish_id ∧ dsh.times_appeared ≠ 0 ∧
      doc = mkDoc it ca ua pg mn dsh := by
  unfold load_and_tranform at h
  split at h
  · exact absurd h (by simp)
  rename_i cas hcas
  split at h
  · exact absurd h (by simp)
  rename_i uas huas
  injection h with h'
  have hlenc : cas.length = items.length := by
    have := mapE_ok_length hcas
    simpa using this
  have hlenu : uas.length = items.length := by
    have := mapE_ok_length huas
    simpa using this
  rw [← h']
  simp only [List.mem_flatMap, List.mem_filter, List.mem_map, beq_iff_eq, bne_iff_ne,
    Bool.and_eq_true, decide_eq_true_eq]
  constructor
  · rintro ⟨row, hrow, pg, ⟨hpgmem, hpgid⟩, mn, ⟨hmnmem, hmnid⟩, dsh,
      ⟨⟨hdshmem, hdshtimes⟩, hdshid⟩, hdoc⟩
    obtain ⟨j, hj⟩ := List.mem_iff_get.mp hrow
    have hjlen : j.val < items.length := by
      have hj2 := j.isLt
      simp [List.length_zip, hlenc, hlenu] at hj2
      omega
    have hjc : j.val < cas.length := by omega
    have hju : j.val < uas.length := by omega
    have hroweq : row = (items.get ⟨j.val, hjlen⟩,
        cas.get ⟨j.val, hjc⟩, uas.get ⟨j.val, hju⟩) := by
      rw [← hj]
      simp [List.getElem_zip]
    have hca := mapE_ok_get hcas j.val (by simpa using hjlen) (by simpa using hjc)
    have hua := mapE_ok_get huas j.val (by simpa using hjlen) (by simpa using hju)
    simp only [List.get_eq_getElem, List.getElem_map] at hca hua
    refine ⟨items.get ⟨j.val, hjlen⟩, List.get_mem items _ _,
      cas.get ⟨j.val, hjc⟩, uas.get ⟨j.val, hju⟩, ?_, ?_, pg, hpgmem, ?_, mn, hmnmem,
      hmnid, dsh, hdshmem, ?_, hdshtimes, ?_⟩
    · simpa using hca
    · simpa using hua
    · rw [hroweq] at hpgid
      exact hpgid
    · rw [hroweq] at hdshid
      exact hdshid
    · rw [hroweq] at hdoc
      exact hdoc.symm
  · rintro ⟨it, hitmem, ca, ua, hca, hua, pg, hpgmem, hpgid, mn, hmnmem, hmnid,
      dsh, hdshmem, hdshid, hdshtimes, hdoc⟩
    obtain ⟨j, hj⟩ := List.mem_iff_get.mp hitmem
    have hjc : j.val < cas.length := by rw [hlenc]; exact j.isLt
    have hju : j.val < uas.length := by rw [hlenu]; exact j.isLt
    have hca2 := mapE_ok_get hcas j.val (by simp) (by simp [hjc])
    have hua2 := mapE_ok_get huas j.val (by simp) (by simp [hju])
    simp only [List.get_eq_getElem, List.getElem_map] at hca2 hua2 hj
    have hcaeq : cas.get ⟨j.val, hjc⟩ = ca := by
      rw [hj, hca] at hca2
      simp only [List.get_eq_getElem]
      injection hca2 with h2
      exact h2.symm
    have huaeq : uas.get ⟨j.val, hju⟩ = ua := by
      rw [hj, hua] at hua2
      simp only [List.get_eq_getElem]
      injection hua2 with h2
      exact h2.symm
    have hzlen : j.val < (items.zip (cas.zip uas)).length := by
      simp [List.length_zip, hlenc, hlenu]
    refine ⟨(it, ca, ua), ?_, pg, ⟨hpgmem, hpgid⟩, mn, ⟨hmnmem, hmnid⟩, dsh,
      ⟨⟨hdshmem, hdshtimes⟩, hdshid⟩, hdoc.symm⟩
    apply List.mem_iff_get.mpr
    refine ⟨⟨j.val, hzlen⟩, ?_⟩
    simp only [List.get_eq_getElem] at hcaeq huaeq ⊢
    simp [List.getElem_zip, hj, hcaeq, huaeq]

/-- Claim C2: a MenuDocument is emitted exactly when matching keys exist
in all four source tables, joined on page id, menu id and dish id, with
the dish drawn from the table already filtered of zero-appearance rows;
consequently no emitted document carries a dish that appears zero
times. -/
theorem c2_join_inner_and_dish_filter
    (dishes : List DishRow) (items : List MenuItemRow) (pages : List MenuPageRow)
    (menus : List MenuRow) (docs : List MenuDocument)
    (h : load_and_tranform dishes items pages menus = Except.ok docs) :
    ∀ doc : MenuDocument,
      (doc ∈ docs ↔ ∃ it ∈ items, ∃ ca ua : List Char,
        reformat_dates it.created_at = Except.ok ca ∧
        reformat_dates it.updated_at = Except.ok ua ∧
        ∃ pg ∈ pages, pg.id = it.menu_page_id ∧
        ∃ mn ∈ menus, mn.id = pg.menu_id ∧
        ∃ dsh ∈ dishes, dsh.id = it.dish_id ∧ dsh.times_appeared ≠ 0 ∧
        doc = mkDoc it ca ua pg mn dsh) ∧
      (doc ∈ docs → doc.dish_times_appeared ≠ 0) := by
  intro doc
  refine ⟨load_and_tranform_mem h doc, ?_⟩
  intro hmem
  obtain ⟨it, _, ca, ua, _, _, pg, _, _, mn, _, _, dsh, _, _, hne, hdoc⟩ :=
    (load_and_tranform_mem h doc).mp hmem
  rw [hdoc]
  exact hne

/-- Claim C2, witness: the chicken gumbo row is emitted from the one-row
tables, through the join characterization applied at the sample data. -/
theorem c2_witness : sampleDoc ∈ sampleDocs := by
  have h := (c2_join_inner_and_dish_filter [sampleDish] [sampleItem] [samplePage]
    [sampleMenu] sampleDocs rfl sampleDoc).1
  apply h.mpr
  exact ⟨sampleItem, by simp, "19000415T120000+0000".data,
    "19000415T130000+0000".data, rfl, rfl, samplePage, by simp, rfl, sampleMenu,
    by simp, rfl, sampleDish, by simp, rfl, by decide, rfl⟩

/-- Claim C7: every emitted document carries the four URIs formatted from
its own integer identifiers over the fixed service paths, the item URI
additionally ending in the edit suffix, and a document for dish one has a
dish URI ending in the dishes slash one path. -/
theorem c7_uri_synthesis
    (dishes : List DishRow) (items : List MenuItemRow) (pages : List MenuPageRow)
    (menus : List MenuRow) (docs : List MenuDocument)
    (h : load_and_tranform dishes items pages menus = Except.ok docs) :
    ∀ doc ∈ docs,
      doc.dish_uri = "http://menus.nypl.org/dishes/".data ++ intChars doc.dish_id ∧
      doc.item_uri = "http://menus.nypl.org/menu_items/".data
        ++ intChars doc.item_id ++ "/edit".data ∧
      doc.menu_page_uri = "http://menus.nypl.org/menu_pages/".data
        ++ intChars doc.menu_page_id ∧
      doc.menu_uri = "http://menus.nypl.org/menus/".data ++ intChars doc.menu_id ∧
      List.IsSuffix "/edit".data doc.item_uri ∧
      (doc.dish_id = 1 → List.IsSuffix "/dishes/1".data doc.dish_uri) := by
  intro doc hmem
  obtain ⟨it, _, ca, ua, _, _, pg, _, _, mn, _, _, dsh, _, _, _, hdoc⟩ :=
    (load_and_tranform_mem h doc).mp hmem
  subst hdoc
  refine ⟨rfl, rfl, rfl, rfl,
    ⟨"http://menus.nypl.org/menu_items/".data ++ intChars it.id, rfl⟩, ?_⟩
  intro h1
  have hstep : (mkDoc it ca ua pg mn dsh).dish_uri = dishUriOf 1 := by
    show dishUriOf it.dish_id = dishUriOf 1
    rw [show it.dish_id = 1 from h1]
  rw [hstep]
  exact ⟨"http://menus.nypl.org".data, by decide⟩

/-- Claim C7, witness: the sample document's item URI, through the URI
synthesis theorem applied at the sample run. -/
theorem c7_witness :
    sampleDoc.item_uri = "http://menus.nypl.org/menu_items/".data
      ++ intChars sampleDoc.item_id ++ "/edit".data := by
  have h := c7_uri_synthesis [sampleDish] [sampleItem] [samplePage] [sampleMenu]
    sampleDocs rfl sampleDoc (by simp [sampleDocs])
  exact h.2.1

/-- Claim C10: the discarded astype and fillna calls leave the emitted
documents untouched, so the page height, width and page number fields
equal the raw source cells, and a NaN cell reaches serialization as a
JSON null rather than the string null that fillna would have written. -/
theorem c10_discarded_coercions
    (dishes : List DishRow) (items : List MenuItemRow) (pages : List MenuPageRow)
    (menus : List MenuRow) (docs : List MenuDocument)
    (h : load_and_tranform dishes items pages menus = Except.ok docs) :
    ∀ doc ∈ docs,
      (∃ pg ∈ pages, pg.id = doc.menu_page_id ∧
        doc.page_image_full_height = pg.full_height ∧
        doc.page_image_full_width = pg.full_width ∧
        doc.menu_page_number = pg.page_number) ∧
      (doc.page_image_full_height = PVal.nan →
        lookupJson (docToJson doc) "page_image_full_height" = some Json.null) ∧
      (doc.page_image_full_width = PVal.nan →
        lookupJson (docToJson doc) "page_image_full_width" = some Json.null) ∧
      (doc.menu_page_number = PVal.nan →
        lookupJson (docToJson doc) "menu_page_number" = some Json.null) := by
  intro doc hmem
  obtain ⟨it, _, ca, ua, _, _, pg, hpgmem, hpgid, mn, _, _, dsh, _, _, _, hdoc⟩ :=
    (load_and_tranform_mem h doc).mp hmem
  subst hdoc
  refine ⟨⟨pg, hpgmem, hpgid, rfl, rfl, rfl⟩, ?_, ?_, ?_⟩
  · intro hnan
    have base : lookupJson (docToJson (mkDoc it ca ua pg mn dsh))
        "page_image_full_height" =
        some (pvalJson (mkDoc it ca ua pg mn dsh).page_image_full_height) := rfl
    rw [base, hnan]
    rfl
  · intro hnan
    have base : lookupJson (docToJson (mkDoc it ca ua pg mn dsh))
        "page_image_full_width" =
        some (pvalJson (mkDoc it ca ua pg mn dsh).page_image_full_width) := rfl
    rw [base, hnan]
    rfl
  · intro hnan
    have base : lookupJson (docToJson (mkDoc it ca ua pg mn dsh))
        "menu_page_number" =
        some (pvalJson (mkDoc it ca ua pg mn dsh).menu_page_number) := rfl
    rw [base, hnan]
    rfl

/-- Claim C10, witness: the sample page has a NaN height, and the emitted
document serializes it as a JSON null, through the discard theorem
applied at the sample run. -/
theorem c10_witness :
    lookupJson (docToJson sampleDoc) "page_image_full_height" = some Json.null := by
  have h := c10_discarded_coercions [sampleDish] [sampleItem] [samplePage]
    [sampleMenu] sampleDocs rfl sampleDoc (by simp [sampleDocs])
  exact h.2.1 rfl

/-! Claim theorems for the document mapper and the loaders. -/
theorem pyToInt_none_iff (v : Json) : pyToInt v = none ↔ nonNumericJson v = true := by
  cases v with
  | num n => simp [pyToInt, nonNumericJson]
  | null => simp [pyToInt, nonNumericJson]
  | str s =>
    show pyIntOfChars (pyStrip s.data) = none ↔ (!isPyIntString s) = true
    unfold isPyIntString
    cases pyIntOfChars (pyStrip s.data) <;> simp

/-- Claim C3: reshape_data targets the constant menus index and item
type, identifies the document by its integer item id with the whole row
as payload, yields a non-negative identifier on well-formed documents,
and fails with a MappingError exactly when the item id field is absent or
not numeric. -/
theorem c3_reshape_data_characterization (doc : List (String × Json)) :
    (∀ v n, lookupJson doc "item_id" = some v → pyToInt v = some n →
      reshape_data doc = Except.ok ⟨"menus", "item", n, doc⟩) ∧
    ((∃ e, reshape_data doc = Except.error e) ↔
      (lookupJson doc "item_id" = none ∨
        ∃ v, lookupJson doc "item_id" = some v ∧ nonNumericJson v = true)) ∧
    (wellFormedMenuDoc doc → ∃ n : Int, 0 ≤ n ∧
      lookupJson doc "item_id" = some (Json.num n) ∧
      reshape_data doc = Except.ok ⟨"menus", "item", n, doc⟩) := by
  refine ⟨?_, ?_, ?_⟩
  · intro v n hv hn
    simp [reshape_data, hv, hn]
  · cases hv : lookupJson doc "item_id" with
    | none =>
      constructor
      · intro _
        exact Or.inl rfl
      · intro _
        refine ⟨MappingError.itemIdMissing, ?_⟩
        simp [reshape_data, hv]
    | some v =>
      cases hn : pyToInt v with
      | none =>
        constructor
        · intro _
          exact Or.inr ⟨v, rfl, (pyToInt_none_iff v).mp hn⟩
        · intro _
          refine ⟨MappingError.itemIdNotNumeric, ?_⟩
          simp [reshape_data, hv, hn]
      | some n =>
        constructor
        · rintro ⟨e, he⟩
          simp [reshape_data, hv, hn] at he
        · rintro (habs | ⟨v', hv', hnn⟩)
          · exact absurd habs (by simp)
          · have hvv : v' = v := by
              injection hv' with h'
              exact h'.symm
            rw [hvv] at hnn
            rw [← pyToInt_none_iff] at hnn
            exact absurd (hn.symm.trans hnn) (by simp)
  · rintro ⟨n, hn0, hlook⟩
    refine ⟨n, hn0, hlook, ?_⟩
    simp [reshape_data, hlook, pyToInt]

/-- Claim C3, witness: a concrete document with item id seven maps to the
action on the menus index with identifier seven and the document as
payload, through the characterization theorem. -/
theorem c3_witness :
    reshape_data sampleJsonDoc = Except.ok ⟨"menus", "item", 7, sampleJsonDoc⟩ :=
  (c3_reshape_data_characterization sampleJsonDoc).1 (Json.num 7) 7 rfl rfl

theorem sumCounter_incr :
    ∀ (c : List (String × Nat)) (k : String),
      sumCounter (counterIncr c k) = sumCounter c + 1 := by
  intro c
  induction c with
  | nil => intro k; rfl
  | cons kv r ih =>
    intro k
    obtain ⟨k', n⟩ := kv
    by_cases hk : k' = k
    · simp [counterIncr, hk, sumCounter]
      omega
    · simp [counterIncr, hk, sumCounter]
      have := ih k
      simp [sumCounter] at this
      omega

theorem bulkLoad_foldl (acks : List BulkAck) :
    ∀ st : BulkState,
      (acks.foldl bulkStep st).failures =
        st.failures ++ (acks.filter (fun a => !a.ok)).map
          (fun a => failMsg a.verb (docPath a.id) a.error) ∧
      sumCounter (acks.foldl bulkStep st).counter =
        sumCounter st.counter + (acks.filter (fun a => a.ok)).length := by
  induction acks with
  | nil =>
    intro st
    simp
  | cons a as ih =>
    intro st
    by_cases ha : a.ok
    · rw [List.foldl_cons]
      rw [show bulkStep st a =
          ⟨counterIncr st.counter (docPath a.id), st.failures,
            st.infos ++ [infoMsg a.verb
              (sumCounter (counterIncr st.counter (docPath a.id)))]⟩ from by
        simp [bulkStep, ha]]
      have h := ih ⟨counterIncr st.counter (docPath a.id), st.failures,
        st.infos ++ [infoMsg a.verb
          (sumCounter (counterIncr st.counter (docPath a.id)))]⟩
      refine ⟨?_, ?_⟩
      · rw [h.1]
        simp [List.filter_cons, ha]
      · rw [h.2]
        simp only [sumCounter_incr]
        simp [List.filter_cons, ha]
        omega
    · rw [List.foldl_cons]
      rw [show bulkStep st a =
          ⟨st.counter, st.failures ++ [failMsg a.verb (docPath a.id) a.error],
            st.infos ++ [infoMsg a.verb (sumCounter st.counter)]⟩ from by
        simp [bulkStep, ha]]
      have h := ih ⟨st.counter,
        st.failures ++ [failMsg a.verb (docPath a.id) a.error],
        st.infos ++ [infoMsg a.verb (sumCounter st.counter)]⟩
      refine ⟨?_, ?_⟩
      · rw [h.1]
        simp [List.filter_cons, ha]
      · rw [h.2]
        simp [List.filter_cons, ha]

/-- Claim C5: the bulk loop logs one failure line, carrying the action
verb, the document path and the reported error, for exactly the failing
acknowledgements, in order; every success increments the per-path
counter, so after n acknowledgements with k failures the total success
count is n minus k. -/
theorem c5_bulk_load_accounting (acks : List BulkAck) :
    (bulkLoad acks).failures =
      (acks.filter (fun a => !a.ok)).map
        (fun a => failMsg a.verb (docPath a.id) a.error) ∧
    (bulkLoad acks).failures.length = (acks.filter (fun a => !a.ok)).length ∧
    sumCounter (bulkLoad acks).counter =
      acks.length - (acks.filter (fun a => !a.ok)).length := by
  have h := bulkLoad_foldl acks ⟨[], [], []⟩
  have hfail : (bulkLoad acks).failures =
      (acks.filter (fun a => !a.ok)).map
        (fun a => failMsg a.verb (docPath a.id) a.error) := by
    have := h.1
    simpa [bulkLoad] using this
  have hsplit : ∀ l : List BulkAck,
      (l.filter (fun a => a.ok)).length + (l.filter (fun a => !a.ok)).length
        = l.length := by
    intro l
    induction l with
    | nil => rfl
    | cons a as ih =>
      by_cases ha : a.ok <;> simp [List.filter_cons, ha] <;> omega
  refine ⟨hfail, by rw [hfail]; simp, ?_⟩
  have h2 := h.2
  have h3 := hsplit acks
  simp only [bulkLoad] at h2 ⊢
  rw [h2]
  simp [sumCounter]
  omega

/-- Claim C8: a run-fatal error from setup or transform is caught by the
single top-level handler of load, logged once with the error class, its
docstring and its message, and load returns normally, re-raising nothing
on any input. -/
theorem c8_top_level_catch (e : RunError) (run : Except RunError (List BulkAck)) :
    (load (Except.error e)).topLog =
      ["Something went wrong: " ++ errorClass e ++ " (" ++ errorDoc e ++ "): "
        ++ errorMsg e] ∧
    (load (Except.error e)).raised = none ∧
    (load run).raised = none := by
  refine ⟨rfl, rfl, ?_⟩
  cases run <;> rfl
